import Mathlib

/-!
Verification development for the `dataload` repository: a schema-driven
serializer between dataclass instances and JSON-like tree values.

The development shallowly embeds the two serializer variants of the source:
  * `simple/serialization.py` (`RecordSerializer`): registration-time decoder
    derivation plus runtime-type-dispatched encoding;
  * `deep_reflection/data.py` (`dict_to_dataclass`): decode-time reflection via
    `reflection.py` (`parse_typehint`, `TypeInfo`, `is_collection_constructible`);
together with the hand-rolled timestamp formatting of `simple/json_util.py`.

Python strings are modelled as `String` (manipulated through `List Char`),
Python `datetime`/`time`/`date` values as explicit records of their fields
(timezone offsets modelled in whole minutes), tree values and runtime values
as the inductive `Val`, and declared field types as the inductive `Ty`.
`UUID` and `Decimal` objects are modelled as carriers of their canonical
string form (the standard library guarantees `UUID(str(u)) == u` and
`Decimal(str(d)) == d`). Python exceptions become the `Err` sum; which
concrete exception class is raised is tracked only approximately (all the
claims concern whether a call fails, not the exception text).
-/

namespace Dataload

/-! ### Fixed-width decimal digit text

Models the digit runs appearing in Python `isoformat` output (`%04d`,
`%02d`, `%06d` fields) and their parsing by `fromisoformat`. -/

def digitChar (n : Nat) : Char := Char.ofNat (48 + n % 10)

/-- Most-significant-digit-first fixed-width digit run of `n` (width `w`),
as produced by a zero-padded format field. -/
def natDigits : Nat → Nat → List Char
  | 0, _ => []
  | w + 1, n => digitChar (n / 10 ^ w) :: natDigits w (n % 10 ^ w)

def charVal (c : Char) : Option Nat :=
  if 48 ≤ c.toNat ∧ c.toNat ≤ 57 then some (c.toNat - 48) else none

def parseDigitsAux : Nat → Nat → List Char → Option (Nat × List Char)
  | 0, acc, cs => some (acc, cs)
  | _ + 1, _, [] => none
  | w + 1, acc, c :: cs =>
    match charVal c with
    | some d => parseDigitsAux w (acc * 10 + d) cs
    | none => none

/-- Consume exactly `w` decimal digits from the front of `cs`. -/
def parseDigits (w : Nat) (cs : List Char) : Option (Nat × List Char) :=
  parseDigitsAux w 0 cs

@[simp] theorem natDigits_length (w n : Nat) : (natDigits w n).length = w := by
  induction w generalizing n with
  | zero => rfl
  | succ w ih => simp [natDigits, ih]

theorem toNat_digitChar (d : Nat) : (digitChar d).toNat = 48 + d % 10 := by
  have h : d % 10 < 10 := Nat.mod_lt _ (by omega)
  simp only [digitChar]
  have hv : Nat.isValidChar (48 + d % 10) := Or.inl (by omega)
  simp [Char.ofNat, hv, Char.toNat, Char.ofNatAux, UInt32.toNat, UInt32.ofNatCore,
    BitVec.toNat_ofNatLt]

theorem charVal_digitChar (d : Nat) : charVal (digitChar d) = some (d % 10) := by
  have h : d % 10 < 10 := Nat.mod_lt _ (by omega)
  simp [charVal, toNat_digitChar]
  omega

theorem charVal_isSome_digitChar (d : Nat) : (charVal (digitChar d)).isSome = true := by
  simp [charVal_digitChar]

theorem parseDigitsAux_natDigits (w : Nat) :
    ∀ (acc n : Nat) (rest : List Char), n < 10 ^ w →
      parseDigitsAux w acc (natDigits w n ++ rest) = some (acc * 10 ^ w + n, rest) := by
  induction w with
  | zero =>
    intro acc n rest h
    have : n = 0 := by omega
    subst this
    simp [natDigits, parseDigitsAux]
  | succ w ih =>
    intro acc n rest h
    have hd : n / 10 ^ w < 10 := by
      have := Nat.pow_succ 10 w
      exact Nat.div_lt_of_lt_mul (by omega)
    simp only [natDigits, List.cons_append, parseDigitsAux, charVal_digitChar,
      Nat.mod_eq_of_lt hd, List.append_eq]
    rw [ih (acc * 10 + n / 10 ^ w) (n % 10 ^ w) rest (Nat.mod_lt _ (Nat.pos_pow_of_pos _ (by omega)))]
    have key : (acc * 10 + n / 10 ^ w) * 10 ^ w + n % 10 ^ w = acc * 10 ^ (w + 1) + n := by
      calc (acc * 10 + n / 10 ^ w) * 10 ^ w + n % 10 ^ w
          = acc * (10 ^ w * 10) + (10 ^ w * (n / 10 ^ w) + n % 10 ^ w) := by ring
        _ = acc * 10 ^ (w + 1) + n := by rw [Nat.div_add_mod, Nat.pow_succ]
    rw [key]

theorem parseDigits_natDigits (w n : Nat) (rest : List Char) (h : n < 10 ^ w) :
    parseDigits w (natDigits w n ++ rest) = some (n, rest) := by
  simpa using parseDigitsAux_natDigits w 0 n rest h

theorem digitChar_mod (x : Nat) : digitChar (x % 10) = digitChar x := by
  simp [digitChar, Nat.mod_mod_of_dvd]

/-- A width-`w` digit run only depends on `n` modulo `10 ^ w`. -/
theorem natDigits_mod (w n : Nat) : natDigits w (n % 10 ^ w) = natDigits w n := by
  induction w generalizing n with
  | zero => rfl
  | succ w ih =>
    have h1 : n % 10 ^ (w + 1) % 10 ^ w = n % 10 ^ w := by
      apply Nat.mod_mod_of_dvd
      exact pow_dvd_pow 10 (by omega)
    have h2 : n % 10 ^ (w + 1) / 10 ^ w = n / 10 ^ w % 10 := by
      have hp : 0 < 10 ^ w := Nat.pos_pow_of_pos _ (by omega)
      rw [Nat.pow_succ, Nat.mod_mul, Nat.add_mul_div_left _ _ hp,
        Nat.div_eq_of_lt (Nat.mod_lt _ hp), Nat.zero_add]
    simp only [natDigits, h1, ih, h2, digitChar_mod]

/-- Splitting a fixed-width digit run at a digit boundary. -/
theorem natDigits_add (a b n : Nat) :
    natDigits (a + b) n = natDigits a (n / 10 ^ b) ++ natDigits b (n % 10 ^ b) := by
  induction a generalizing n with
  | zero => simp [natDigits, natDigits_mod]
  | succ a ih =>
    have h1 : a + 1 + b = (a + b) + 1 := by omega
    have hz : n / 10 ^ b / 10 ^ a = n / 10 ^ (a + b) := by
      rw [Nat.div_div_eq_div_mul, ← pow_add, Nat.add_comm b a]
    rw [h1]
    have lhs : natDigits (a + b + 1) n
        = digitChar (n / 10 ^ (a + b)) :: natDigits (a + b) (n % 10 ^ (a + b)) := rfl
    have rhs : natDigits (a + 1) (n / 10 ^ b)
        = digitChar (n / 10 ^ b / 10 ^ a) :: natDigits a (n / 10 ^ b % 10 ^ a) := rfl
    rw [lhs, rhs, natDigits_mod, natDigits_mod, ih, hz, List.cons_append]

/-! ### Errors

One sum for all the Python exception classes the modelled code can raise.
`serializerTypeError` models `SerializerTypeError`; `recursionError` models
`RecursionError` (reaching the interpreter stack limit). -/

inductive Err where
  | keyError
  | typeError
  | valueError
  | serializerTypeError
  | recursionError
  deriving DecidableEq, Repr

/-! ### Temporal values

`datetime.datetime`, `datetime.time` and `datetime.date` objects are records
of their components; timezone offsets (`utcoffset`) are modelled in whole
minutes. -/

structure Datetime where
  year : Nat
  month : Nat
  day : Nat
  hour : Nat
  minute : Nat
  second : Nat
  microsecond : Nat
  tz : Option Int
  deriving DecidableEq, Repr

structure Time where
  hour : Nat
  minute : Nat
  second : Nat
  microsecond : Nat
  tz : Option Int
  deriving DecidableEq, Repr

structure Date where
  year : Nat
  month : Nat
  day : Nat
  deriving DecidableEq, Repr

/-- Component ranges enforced by the `datetime.date` constructor (the
day-of-month upper bound is modelled loosely as 31). -/
def ValidDate (y mo dd : Nat) : Prop :=
  1 ≤ y ∧ y ≤ 9999 ∧ 1 ≤ mo ∧ mo ≤ 12 ∧ 1 ≤ dd ∧ dd ≤ 31

def ValidClock (h mi s us : Nat) : Prop :=
  h ≤ 23 ∧ mi ≤ 59 ∧ s ≤ 59 ∧ us ≤ 999999

def ValidTz : Option Int → Prop
  | none => True
  | some off => off.natAbs ≤ 1439

def Datetime.Valid (d : Datetime) : Prop :=
  ValidDate d.year d.month d.day ∧ ValidClock d.hour d.minute d.second d.microsecond ∧
    ValidTz d.tz

def Time.Valid (t : Time) : Prop :=
  ValidClock t.hour t.minute t.second t.microsecond ∧ ValidTz t.tz

def Date.Valid (d : Date) : Prop := ValidDate d.year d.month d.day

/-! Pieces of Python `isoformat` output. -/

def dateChars (y mo dd : Nat) : List Char :=
  natDigits 4 y ++ '-' :: natDigits 2 mo ++ '-' :: natDigits 2 dd

def clockChars (h mi s : Nat) : List Char :=
  natDigits 2 h ++ ':' :: natDigits 2 mi ++ ':' :: natDigits 2 s

/-- `isoformat` prints a 6-digit fractional part exactly when the microsecond
component is nonzero. -/
def fracChars (us : Nat) : List Char :=
  if us ≠ 0 then '.' :: natDigits 6 us else []

def offsetChars (off : Int) : List Char :=
  (if off < 0 then '-' else '+') ::
    (natDigits 2 (off.natAbs / 60) ++ ':' :: natDigits 2 (off.natAbs % 60))

def Datetime.isoChars (d : Datetime) : List Char :=
  dateChars d.year d.month d.day ++ 'T' :: clockChars d.hour d.minute d.second ++
    fracChars d.microsecond ++
    (match d.tz with
     | none => []
     | some off => offsetChars off)

/-- Python `str.endswith` on character lists. -/
def endsWithChars (cs suf : List Char) : Bool :=
  decide (suf.length ≤ cs.length) && decide (cs.drop (cs.length - suf.length) = suf)

/-- Model of `json_util.datetime_to_json`: take `isoformat` text, replace a
trailing explicit zero offset by the `Z` marker, and when the microsecond
component is nonzero cut characters 23..25 (reducing the 6 fractional digits
to 3). -/
def datetime_to_json (d : Datetime) : String :=
  let s := d.isoChars
  let s1 := if endsWithChars s ("+00:00".toList) then s.take (s.length - 6) ++ ['Z'] else s
  let s2 := if d.microsecond ≠ 0 then s1.take 23 ++ s1.drop 26 else s1
  String.mk s2

/-! Model of `datetime.fromisoformat` (standard-library collaborator,
CPython < 3.11 grammar: the exact shapes `isoformat` emits). -/

def expectChar (c : Char) : List Char → Option (List Char)
  | x :: rest => if x = c then some rest else none
  | [] => none

def parseDatePart (cs : List Char) : Option (Nat × Nat × Nat × List Char) := do
  let (y, cs) ← parseDigits 4 cs
  let cs ← expectChar '-' cs
  let (mo, cs) ← parseDigits 2 cs
  let cs ← expectChar '-' cs
  let (dd, cs) ← parseDigits 2 cs
  if 1 ≤ y ∧ 1 ≤ mo ∧ mo ≤ 12 ∧ 1 ≤ dd ∧ dd ≤ 31 then some (y, mo, dd, cs) else none

/-- An optional fractional-seconds field: absent, or a dot followed by exactly
3 or 6 digits. -/
def parseFraction (cs : List Char) : Option (Nat × List Char) :=
  match cs with
  | c :: rest =>
    if c = '.' then
      let run := rest.takeWhile (fun c2 => (charVal c2).isSome)
      if run.length = 3 then (parseDigits 3 rest).map (fun p => (p.1 * 1000, p.2))
      else if run.length = 6 then parseDigits 6 rest
      else none
    else some (0, cs)
  | [] => some (0, cs)

/-- An optional trailing `±HH:MM` offset; must consume the whole remainder. -/
def parseOffset (cs : List Char) : Option (Option Int) :=
  match cs with
  | [] => some none
  | c :: rest =>
    if c = '+' ∨ c = '-' then
      match parseDigits 2 rest with
      | none => none
      | some (hh, r1) =>
        match expectChar ':' r1 with
        | none => none
        | some r2 =>
          match parseDigits 2 r2 with
          | none => none
          | some (mm, r3) =>
            match r3 with
            | [] =>
              if hh ≤ 23 ∧ mm ≤ 59 then
                let v : Int := (hh * 60 + mm : Nat)
                some (some (if c = '-' then -v else v))
              else none
            | _ => none
    else none

def finishClock (h mi s us : Nat) (cs : List Char) : Option (Nat × Nat × Nat × Nat × Option Int) :=
  match parseOffset cs with
  | none => none
  | some tz => if h ≤ 23 ∧ mi ≤ 59 ∧ s ≤ 59 ∧ us ≤ 999999 then some (h, mi, s, us, tz) else none

/-- `HH[:MM[:SS[.fff[fff]]]]` followed by an optional offset. -/
def parseClockPart (cs : List Char) : Option (Nat × Nat × Nat × Nat × Option Int) := do
  let (h, cs) ← parseDigits 2 cs
  match cs with
  | c :: cs1 =>
    if c = ':' then do
      let (mi, cs2) ← parseDigits 2 cs1
      match cs2 with
      | c2 :: cs3 =>
        if c2 = ':' then do
          let (s, cs4) ← parseDigits 2 cs3
          let (us, cs5) ← parseFraction cs4
          finishClock h mi s us cs5
        else finishClock h mi 0 0 cs2
      | [] => finishClock h mi 0 0 cs2
    else finishClock h 0 0 0 cs
  | [] => finishClock h 0 0 0 cs

def fromisoformatDT (cs : List Char) : Option Datetime := do
  let (y, mo, dd, rest) ← parseDatePart cs
  match rest with
  | [] => some ⟨y, mo, dd, 0, 0, 0, 0, none⟩
  | _sep :: clockcs => do
    let (h, mi, s, us, tz) ← parseClockPart clockcs
    some ⟨y, mo, dd, h, mi, s, us, tz⟩

/-- Model of `json_util.json_to_datetime`: restore a trailing `Z` to an
explicit zero offset, then `datetime.fromisoformat`. -/
def json_to_datetime (s : String) : Except Err Datetime :=
  let cs := s.toList
  let cs1 := if endsWithChars cs ['Z'] then cs.take (cs.length - 1) ++ "+00:00".toList else cs
  match fromisoformatDT cs1 with
  | some d => .ok d
  | none => .error .valueError

/-- Model of `json_util.time_to_json`: reject timezone-aware times, then cut
the fractional part of `isoformat` output to 3 digits when present. -/
def time_to_json (t : Time) : Except Err String :=
  if t.tz.isSome then .error .valueError
  else
    let s := clockChars t.hour t.minute t.second ++ fracChars t.microsecond
    let s1 := if t.microsecond ≠ 0 then s.take 12 else s
    .ok (String.mk s1)

/-- Model of `json_util.json_to_time` (`datetime.time.fromisoformat`). -/
def json_to_time (s : String) : Except Err Time :=
  match parseClockPart s.toList with
  | some (h, mi, sec, us, tz) => .ok ⟨h, mi, sec, us, tz⟩
  | none => .error .valueError

/-- Model of the registered `date` encoder (`lambda d: d.isoformat()`). -/
def date_to_json (d : Date) : String :=
  String.mk (dateChars d.year d.month d.day)

/-- Model of the registered `date` decoder (`date.fromisoformat`). -/
def json_to_date (s : String) : Except Err Date :=
  match parseDatePart s.toList with
  | some (y, mo, dd, []) => .ok ⟨y, mo, dd⟩
  | _ => .error .valueError

/-! ### Round-trip facts for the temporal codecs -/

theorem endsWith_of_append (A B suf : List Char) (hB : B.length = suf.length) :
    endsWithChars (A ++ B) suf = decide (B = suf) := by
  unfold endsWithChars
  have hlen : (A ++ B).length - suf.length = A.length := by
    simp [List.length_append]
    omega
  rw [hlen, List.drop_left]
  have hle : (decide (suf.length ≤ (A ++ B).length)) = true := by
    simp [List.length_append]
    omega
  rw [hle, Bool.true_and]

theorem natDigits_one (x : Nat) : natDigits 1 x = [digitChar x] := by
  simp [natDigits, digitChar_mod]

theorem natDigits_two (x : Nat) : natDigits 2 x = [digitChar (x / 10), digitChar (x % 10)] := by
  have h1 : natDigits 2 x = digitChar (x / 10 ^ 1) :: natDigits 1 (x % 10 ^ 1) := rfl
  have e : x % 10 ^ 1 = x % 10 := by norm_num
  rw [h1, natDigits_one, e, digitChar_mod]
  norm_num

theorem natDigits_three (x : Nat) :
    natDigits 3 x = [digitChar (x / 100), digitChar (x / 10 % 10), digitChar (x % 10)] := by
  have h1 : natDigits 3 x = digitChar (x / 10 ^ 2) :: natDigits 2 (x % 10 ^ 2) := rfl
  have e1 : x % 10 ^ 2 / 10 = x / 10 % 10 := by omega
  have e2 : x % 10 ^ 2 % 10 = x % 10 := by omega
  rw [h1, natDigits_two, e1, e2]
  norm_num

theorem digitChar_ne (c : Char) (hc : charVal c = Option.none) (x : Nat) : digitChar x ≠ c := by
  intro h
  rw [← h, charVal_digitChar] at hc
  cases hc

theorem charVal_colon : charVal ':' = Option.none := by decide

theorem charVal_plus : charVal '+' = Option.none := by decide

theorem charVal_minus : charVal '-' = Option.none := by decide

theorem charVal_z : charVal 'Z' = Option.none := by decide

/-- The head of the remainder after a digit run decides where `takeWhile`
stops. -/
def headIsDigit : List Char → Bool
  | [] => false
  | c :: _ => (charVal c).isSome

def headIsDot : List Char → Bool
  | [] => false
  | c :: _ => c = '.'

theorem takeWhile_natDigits (w n : Nat) (tail : List Char) (htail : headIsDigit tail = false) :
    (natDigits w n ++ tail).takeWhile (fun c => (charVal c).isSome) = natDigits w n := by
  induction w generalizing n with
  | zero =>
    cases tail with
    | nil => rfl
    | cons c r =>
      simp only [natDigits, List.nil_append, List.takeWhile]
      simp only [headIsDigit] at htail
      rw [htail]
  | succ w ih =>
    simp only [natDigits, List.cons_append, List.takeWhile_cons, charVal_isSome_digitChar,
      if_true, List.append_eq]
    rw [ih (n % 10 ^ w)]

theorem parseFraction_ms (k : Nat) (tail : List Char) (hk : k < 1000)
    (htail : headIsDigit tail = false) :
    parseFraction ('.' :: (natDigits 3 k ++ tail)) = some (k * 1000, tail) := by
  show (if ('.' : Char) = '.' then
      let run := (natDigits 3 k ++ tail).takeWhile (fun c2 => (charVal c2).isSome)
      if run.length = 3 then (parseDigits 3 (natDigits 3 k ++ tail)).map (fun p => (p.1 * 1000, p.2))
      else if run.length = 6 then parseDigits 6 (natDigits 3 k ++ tail)
      else none
    else some (0, '.' :: (natDigits 3 k ++ tail))) = some (k * 1000, tail)
  rw [if_pos rfl]
  simp only [takeWhile_natDigits 3 k tail htail, natDigits_length, if_true]
  rw [parseDigits_natDigits 3 k tail (by omega)]
  rfl

theorem parseFraction_nodot (cs : List Char)
    (hcs : headIsDot cs = false) :
    parseFraction cs = some (0, cs) := by
  match cs with
  | [] => rfl
  | c :: rest =>
    show (if c = '.' then _ else some (0, c :: rest)) = some (0, c :: rest)
    rw [if_neg]
    intro hc
    rw [hc] at hcs
    exact absurd hcs (by simp [headIsDot])

theorem offsetChars_zero : offsetChars 0 = "+00:00".toList := by decide

theorem offsetChars_length (off : Int) : (offsetChars off).length = 6 := by
  simp [offsetChars]

theorem digitChar_eq_zero_char (x : Nat) (h : digitChar x = '0') : x % 10 = 0 := by
  have hc := congrArg charVal h
  rw [charVal_digitChar] at hc
  have h0 : charVal '0' = some 0 := by decide
  rw [h0] at hc
  exact Option.some.inj hc

theorem offsetChars_ne_zero (off : Int) (hv : off.natAbs ≤ 1439) (h0 : off ≠ 0) :
    offsetChars off ≠ "+00:00".toList := by
  intro h
  unfold offsetChars at h
  rw [natDigits_two, natDigits_two] at h
  have hlist : "+00:00".toList = ['+', '0', '0', ':', '0', '0'] := by decide
  rw [hlist] at h
  simp only [List.cons_append, List.nil_append, List.cons.injEq, List.nil_eq] at h
  obtain ⟨_, h2, h3, _, h5, h6, _⟩ := h
  have e2 := digitChar_eq_zero_char _ h2
  have e3 := digitChar_eq_zero_char _ h3
  have e5 := digitChar_eq_zero_char _ h5
  have e6 := digitChar_eq_zero_char _ h6
  have hna : off.natAbs ≠ 0 := fun hz => h0 (Int.natAbs_eq_zero.mp hz)
  omega

theorem expectChar_cons (c : Char) (cs : List Char) : expectChar c (c :: cs) = some cs := by
  simp [expectChar]

theorem parseDatePart_dateChars (y mo dd : Nat) (rest : List Char) (hv : ValidDate y mo dd) :
    parseDatePart (dateChars y mo dd ++ rest) = some (y, mo, dd, rest) := by
  obtain ⟨h1, h2, h3, h4, h5, h6⟩ := hv
  have hy : y < 10 ^ 4 := by norm_num; omega
  have hmo : mo < 10 ^ 2 := by norm_num; omega
  have hdd : dd < 10 ^ 2 := by norm_num; omega
  unfold parseDatePart dateChars
  simp only [List.append_assoc, List.cons_append]
  rw [parseDigits_natDigits 4 y _ hy]
  simp only [Option.bind_eq_bind, Option.some_bind]
  rw [expectChar_cons]
  simp only [Option.some_bind]
  rw [parseDigits_natDigits 2 mo _ hmo]
  simp only [Option.some_bind]
  rw [expectChar_cons]
  simp only [Option.some_bind]
  rw [parseDigits_natDigits 2 dd _ hdd]
  simp only [Option.some_bind]
  rw [if_pos]
  exact ⟨h1, h3, h4, h5, h6⟩

theorem parseOffset_nil : parseOffset [] = some Option.none := rfl

theorem parseOffset_offsetChars (off : Int) (hv : off.natAbs ≤ 1439) :
    parseOffset (offsetChars off) = some (some off) := by
  have hhh : off.natAbs / 60 < 10 ^ 2 := by norm_num; omega
  have hmm2 : off.natAbs % 60 < 10 ^ 2 := by norm_num; omega
  have P1 := parseDigits_natDigits 2 (off.natAbs / 60) (':' :: natDigits 2 (off.natAbs % 60)) hhh
  have P2 : parseDigits 2 (natDigits 2 (off.natAbs % 60)) = some (off.natAbs % 60, []) := by
    simpa using parseDigits_natDigits 2 (off.natAbs % 60) [] hmm2
  have hrange : off.natAbs / 60 ≤ 23 ∧ off.natAbs % 60 ≤ 59 := by constructor <;> omega
  unfold offsetChars parseOffset
  by_cases hneg : off < 0
  · rw [if_pos hneg]
    simp only [List.cons_append]
    rw [if_pos (Or.inr (trivial : True))]
    simp only [P1, expectChar_cons, P2]
    rw [if_pos hrange, if_pos (trivial : True)]
    simp only [Option.some.injEq]
    omega
  · rw [if_neg hneg]
    simp only [List.cons_append]
    rw [if_pos (Or.inl (trivial : True))]
    simp only [P1, expectChar_cons, P2]
    rw [if_pos hrange, if_neg (by decide)]
    simp only [Option.some.injEq]
    omega

theorem finishClock_run (h mi s us : Nat) (tail : List Char) (tz : Option Int)
    (hv : ValidClock h mi s us) (htz : parseOffset tail = some tz) :
    finishClock h mi s us tail = some (h, mi, s, us, tz) := by
  obtain ⟨h1, h2, h3, h4⟩ := hv
  unfold finishClock
  rw [htz]
  show (if h ≤ 23 ∧ mi ≤ 59 ∧ s ≤ 59 ∧ us ≤ 999999 then some (h, mi, s, us, tz) else none) = _
  rw [if_pos ⟨h1, h2, h3, h4⟩]

theorem parseClockPart_clockChars (h mi s us : Nat) (tail : List Char) (tz : Option Int)
    (hv : ValidClock h mi s (us * 1000)) (hus : us < 1000)
    (htz : parseOffset tail = some tz) (hhead : headIsDigit tail = false)
    (hdot : headIsDot tail = false) :
    parseClockPart
        (clockChars h mi s ++
          ((if us ≠ 0 then '.' :: natDigits 3 us else []) ++ tail))
      = some (h, mi, s, us * 1000, tz) := by
  have hh : h < 10 ^ 2 := by
    obtain ⟨h1, _, _, _⟩ := hv
    norm_num
    omega
  have hmi : mi < 10 ^ 2 := by
    obtain ⟨_, h2, _, _⟩ := hv
    norm_num
    omega
  have hs : s < 10 ^ 2 := by
    obtain ⟨_, _, h3, _⟩ := hv
    norm_num
    omega
  unfold parseClockPart clockChars
  simp only [List.append_assoc, List.cons_append]
  rw [parseDigits_natDigits 2 h _ hh]
  simp only [Option.bind_eq_bind, Option.some_bind, reduceIte]
  rw [parseDigits_natDigits 2 mi _ hmi]
  simp only [Option.some_bind, reduceIte]
  rw [parseDigits_natDigits 2 s _ hs]
  simp only [Option.some_bind]
  by_cases h0 : us = 0
  · subst h0
    simp only [ne_eq, not_true_eq_false, if_neg, ite_false, List.nil_append]
    rw [parseFraction_nodot tail hdot]
    simp only [Option.some_bind]
    exact finishClock_run h mi s 0 tail tz hv htz
  · rw [if_pos h0, List.cons_append]
    rw [parseFraction_ms us tail hus hhead]
    simp only [Option.some_bind]
    exact finishClock_run h mi s (us * 1000) tail tz hv htz

/-- The reconstructed datetime text after `datetime_to_json`:
the date, a `T`, the clock, a millisecond fraction when the microsecond
component was nonzero, and the offset in the form the surgery left it. -/
def encodedDT (d : Datetime) : List Char :=
  dateChars d.year d.month d.day ++
    'T' :: (clockChars d.hour d.minute d.second ++
      ((if d.microsecond ≠ 0 then '.' :: natDigits 3 (d.microsecond / 1000) else []) ++
        (match d.tz with
         | Option.none => []
         | some off => if off = 0 then ['Z'] else offsetChars off)))

theorem fromisoformatDT_parts (y mo dd hh mi ss us : Nat) (tail : List Char) (tz : Option Int)
    (hdate : ValidDate y mo dd) (hclock : ValidClock hh mi ss (us * 1000)) (hus : us < 1000)
    (htz : parseOffset tail = some tz) (hhead : headIsDigit tail = false)
    (hdot : headIsDot tail = false) :
    fromisoformatDT
        (dateChars y mo dd ++
          'T' :: (clockChars hh mi ss ++ ((if us ≠ 0 then '.' :: natDigits 3 us else []) ++ tail)))
      = some ⟨y, mo, dd, hh, mi, ss, us * 1000, tz⟩ := by
  unfold fromisoformatDT
  rw [parseDatePart_dateChars _ _ _ _ hdate]
  simp only [Option.bind_eq_bind, Option.some_bind]
  rw [parseClockPart_clockChars _ _ _ _ tail tz hclock hus htz hhead hdot]
  simp only [Option.some_bind]

theorem string_toList_mk (cs : List Char) : (String.mk cs).toList = cs := rfl

theorem endsWith_plus00_off (P : List Char) (off : Int) (hv : off.natAbs ≤ 1439) :
    endsWithChars (P ++ offsetChars off) ("+00:00".toList) = decide (off = 0) := by
  rw [endsWith_of_append _ _ _ (by simp [offsetChars_length])]
  by_cases h0 : off = 0
  · subst h0
    rw [offsetChars_zero]
    simp
  · simp only [h0, decide_False]
    apply decide_eq_false
    exact offsetChars_ne_zero off hv h0

theorem endsWith_plus00_nofrac (y mo dd hh mi ss : Nat) :
    endsWithChars (dateChars y mo dd ++ 'T' :: clockChars hh mi ss) ("+00:00".toList) = false := by
  have hshape : dateChars y mo dd ++ 'T' :: clockChars hh mi ss
      = (dateChars y mo dd ++ 'T' :: natDigits 2 hh) ++
          (':' :: (natDigits 2 mi ++ ':' :: natDigits 2 ss)) := by
    simp [clockChars, List.append_assoc]
  rw [hshape, endsWith_of_append _ _ _ (by simp)]
  apply decide_eq_false
  intro h
  have hlist : "+00:00".toList = '+' :: ['0', '0', ':', '0', '0'] := by decide
  rw [hlist] at h
  injection h with h1 _
  exact absurd h1 (by decide)

theorem endsWith_plus00_frac (Q : List Char) (us : Nat) :
    endsWithChars (Q ++ '.' :: natDigits 6 us) ("+00:00".toList) = false := by
  have hshape : Q ++ '.' :: natDigits 6 us = (Q ++ ['.']) ++ natDigits 6 us := by
    simp [List.append_assoc]
  rw [hshape, endsWith_of_append _ _ _ (by simp)]
  apply decide_eq_false
  intro h
  have h6 : natDigits 6 us = digitChar (us / 10 ^ 5) :: natDigits 5 (us % 10 ^ 5) := rfl
  have hlist : "+00:00".toList = '+' :: ['0', '0', ':', '0', '0'] := by decide
  rw [h6, hlist] at h
  injection h with h1 _
  exact digitChar_ne '+' charVal_plus _ h1

theorem dateT_clock_length (y mo dd hh mi ss : Nat) :
    (dateChars y mo dd ++ 'T' :: clockChars hh mi ss).length = 19 := by
  simp [dateChars, clockChars]

theorem fracB_length (y mo dd hh mi ss a b : Nat) :
    ((dateChars y mo dd ++ 'T' :: clockChars hh mi ss) ++
        '.' :: (natDigits 3 a ++ natDigits 3 b)).length = 26 := by
  simp [dateChars, clockChars]

theorem take23_fracB (y mo dd hh mi ss a b : Nat) :
    ((dateChars y mo dd ++ 'T' :: clockChars hh mi ss) ++
        '.' :: (natDigits 3 a ++ natDigits 3 b)).take 23
      = (dateChars y mo dd ++ 'T' :: clockChars hh mi ss) ++ '.' :: natDigits 3 a := by
  rw [show (23 : Nat) = (dateChars y mo dd ++ 'T' :: clockChars hh mi ss).length + 4 from by
    rw [dateT_clock_length]]
  rw [List.take_append]
  rfl

theorem drop26_fracB (y mo dd hh mi ss a b : Nat) :
    ((dateChars y mo dd ++ 'T' :: clockChars hh mi ss) ++
        '.' :: (natDigits 3 a ++ natDigits 3 b)).drop 26 = [] := by
  rw [show (26 : Nat) = (dateChars y mo dd ++ 'T' :: clockChars hh mi ss).length + 7 from by
    rw [dateT_clock_length]]
  rw [List.drop_append]
  rfl

/-- The text `datetime_to_json` produces: the date, a `T`, the clock, a
3-digit millisecond fraction when the microsecond component is nonzero,
and the (possibly `Z`-abbreviated) offset. -/
theorem datetime_to_json_chars (d : Datetime) (hv : d.Valid) :
    (datetime_to_json d).toList = encodedDT d := by
  obtain ⟨y, mo, dd, hh, mi, ss, us, tz⟩ := d
  obtain ⟨hdate, hclock, htz⟩ := hv
  simp only at hclock htz
  unfold datetime_to_json Datetime.isoChars encodedDT fracChars
  simp only [string_toList_mk]
  have hsplit : natDigits 6 us = natDigits 3 (us / 10 ^ 3) ++ natDigits 3 (us % 10 ^ 3) :=
    natDigits_add 3 3 us
  cases tz with
  | none =>
    simp only [List.append_nil]
    by_cases h0 : us ≠ 0
    · simp only [if_pos h0]
      rw [endsWith_plus00_frac _ us]
      simp only [Bool.false_eq_true, if_false, ite_false, hsplit]
      rw [take23_fracB, drop26_fracB]
      have hdiv : us / 10 ^ 3 = us / 1000 := by norm_num
      rw [hdiv]
      simp only [List.append_nil, List.append_assoc, List.cons_append]
    · simp only [if_neg h0, List.append_nil]
      rw [endsWith_plus00_nofrac]
      simp
  | some off =>
    by_cases hoff0 : off = 0
    · subst hoff0
      by_cases h0 : us ≠ 0
      · simp only [if_pos h0]
        rw [endsWith_plus00_off _ 0 (by simp)]
        simp only [decide_True, if_true, ite_true, reduceIte]
        have hlen : (((dateChars y mo dd ++ 'T' :: clockChars hh mi ss) ++ '.' :: natDigits 6 us)
              ++ offsetChars 0).length - 6
            = ((dateChars y mo dd ++ 'T' :: clockChars hh mi ss) ++ '.' :: natDigits 6 us).length := by
          simp [offsetChars_length]
          try omega
        rw [hlen, List.take_left]
        simp only [hsplit]
        rw [List.take_append_of_le_length (by rw [fracB_length]; omega), take23_fracB]
        rw [show (26 : Nat) = ((dateChars y mo dd ++ 'T' :: clockChars hh mi ss) ++
            '.' :: (natDigits 3 (us / 10 ^ 3) ++ natDigits 3 (us % 10 ^ 3))).length + 0 from by
          rw [fracB_length]]
        rw [List.drop_append]
        simp [List.append_assoc]
      · simp only [if_neg h0, List.append_nil]
        rw [endsWith_plus00_off _ 0 (by simp)]
        simp only [decide_True, if_true, ite_true, reduceIte]
        have hlen : ((dateChars y mo dd ++ 'T' :: clockChars hh mi ss)
              ++ offsetChars 0).length - 6
            = (dateChars y mo dd ++ 'T' :: clockChars hh mi ss).length := by
          simp [offsetChars_length]
          try omega
        rw [hlen, List.take_left]
        simp [List.append_assoc]
    · by_cases h0 : us ≠ 0
      · simp only [if_pos h0, if_neg hoff0]
        rw [endsWith_plus00_off _ off htz]
        simp only [hoff0, decide_False, Bool.false_eq_true, if_false, ite_false, hsplit]
        rw [List.take_append_of_le_length (by rw [fracB_length]; omega), take23_fracB]
        rw [show (26 : Nat) = ((dateChars y mo dd ++ 'T' :: clockChars hh mi ss) ++
            '.' :: (natDigits 3 (us / 10 ^ 3) ++ natDigits 3 (us % 10 ^ 3))).length + 0 from by
          rw [fracB_length]]
        rw [List.drop_append]
        simp [List.append_assoc]
      · simp only [if_neg h0, List.append_nil, if_neg hoff0]
        rw [endsWith_plus00_off _ off htz]
        simp only [hoff0, decide_False, Bool.false_eq_true, if_false, ite_false]
        simp [List.append_assoc]

theorem endsWith_single_ne (cs : List Char) (z c : Char) (h : cs.getLast? = some c)
    (hne : c ≠ z) : endsWithChars cs [z] = false := by
  have hnil : cs ≠ [] := by
    intro he
    rw [he] at h
    cases h
  have hdecomp : cs.dropLast ++ [cs.getLast hnil] = cs := List.dropLast_append_getLast hnil
  have hlastc : cs.getLast hnil = c := by
    have := List.getLast?_eq_getLast cs hnil
    rw [this] at h
    exact Option.some.inj h
  rw [← hdecomp, hlastc, endsWith_of_append _ _ _ (by simp)]
  apply decide_eq_false
  intro he
  injection he with h1 _
  exact hne h1

theorem getLast?_natDigits2 (x : Nat) :
    (natDigits 2 x).getLast? = some (digitChar (x % 10)) := by
  rw [natDigits_two]
  rfl

theorem getLast?_natDigits3 (x : Nat) :
    (natDigits 3 x).getLast? = some (digitChar (x % 10)) := by
  rw [natDigits_three]
  rfl

theorem getLast?_clockChars (hh mi ss : Nat) :
    (clockChars hh mi ss).getLast? = some (digitChar (ss % 10)) := by
  unfold clockChars
  rw [List.getLast?_append_of_ne_nil _ (by simp [natDigits_two]),
    show (':' :: natDigits 2 ss) = [':'] ++ natDigits 2 ss from rfl,
    List.getLast?_append_of_ne_nil _ (by simp [natDigits_two])]
  exact getLast?_natDigits2 ss

theorem getLast?_offsetChars (off : Int) :
    (offsetChars off).getLast? = some (digitChar (off.natAbs % 60 % 10)) := by
  unfold offsetChars
  rw [show ((if off < 0 then '-' else '+') ::
        (natDigits 2 (off.natAbs / 60) ++ ':' :: natDigits 2 (off.natAbs % 60)))
      = [if off < 0 then '-' else '+'] ++
        (natDigits 2 (off.natAbs / 60) ++ ':' :: natDigits 2 (off.natAbs % 60)) from rfl]
  rw [List.getLast?_append_of_ne_nil _ (by simp [natDigits_two])]
  rw [List.getLast?_append_of_ne_nil _ (by simp)]
  rw [show (':' :: natDigits 2 (off.natAbs % 60)) = [':'] ++ natDigits 2 (off.natAbs % 60) from rfl,
    List.getLast?_append_of_ne_nil _ (by simp [natDigits_two])]
  exact getLast?_natDigits2 _

/-- Round-trip of the datetime codec pair of `json_util`: for any
constructible `datetime` whose microsecond component is a whole number of
milliseconds, decoding the encoding recovers the value exactly. -/
theorem json_to_datetime_datetime_to_json (d : Datetime) (hv : d.Valid)
    (hms : d.microsecond % 1000 = 0) :
    json_to_datetime (datetime_to_json d) = .ok d := by
  unfold json_to_datetime
  rw [show (datetime_to_json d).toList = encodedDT d from datetime_to_json_chars d hv]
  obtain ⟨y, mo, dd, hh, mi, ss, us, tz⟩ := d
  obtain ⟨hdate, hclock, htz⟩ := hv
  simp only at hdate hclock htz hms
  have hus : us / 1000 < 1000 := by
    obtain ⟨_, _, _, h4⟩ := hclock
    omega
  have husval : us / 1000 * 1000 = us := by omega
  have hclock2 : ValidClock hh mi ss (us / 1000 * 1000) := by rw [husval]; exact hclock
  have hcond : (us ≠ 0) = (us / 1000 ≠ 0) := by
    simp only [ne_eq, eq_iff_iff]
    constructor <;> intro hx hy <;> omega
  unfold encodedDT
  simp only [hcond]
  cases tz with
  | none =>
    have hgl : (dateChars y mo dd ++
        'T' :: (clockChars hh mi ss ++
          ((if us / 1000 ≠ 0 then '.' :: natDigits 3 (us / 1000) else []) ++ []))).getLast?
        = some (if us / 1000 ≠ 0 then digitChar (us / 1000 % 10) else digitChar (ss % 10)) := by
      by_cases h0 : us / 1000 ≠ 0
      · simp only [if_pos h0, List.append_nil]
        rw [List.getLast?_append_of_ne_nil _ (by simp),
          show ('T' :: (clockChars hh mi ss ++ '.' :: natDigits 3 (us / 1000)))
            = ['T'] ++ (clockChars hh mi ss ++ '.' :: natDigits 3 (us / 1000)) from rfl,
          List.getLast?_append_of_ne_nil _ (by simp [natDigits_three]),
          List.getLast?_append_of_ne_nil _ (by simp [natDigits_three]),
          show ('.' :: natDigits 3 (us / 1000)) = ['.'] ++ natDigits 3 (us / 1000) from rfl,
          List.getLast?_append_of_ne_nil _ (by simp [natDigits_three])]
        exact getLast?_natDigits3 _
      · simp only [if_neg h0, List.append_nil]
        rw [List.getLast?_append_of_ne_nil _ (by simp),
          show ('T' :: clockChars hh mi ss) = ['T'] ++ clockChars hh mi ss from rfl,
          List.getLast?_append_of_ne_nil _ (by simp [clockChars, natDigits_two])]
        exact getLast?_clockChars hh mi ss
    rw [endsWith_single_ne _ 'Z' _ hgl (by
      by_cases h0 : us / 1000 ≠ 0
      · rw [if_pos h0]
        exact digitChar_ne 'Z' charVal_z _
      · rw [if_neg h0]
        exact digitChar_ne 'Z' charVal_z _)]
    simp only [Bool.false_eq_true, if_false, ite_false]
    rw [fromisoformatDT_parts y mo dd hh mi ss (us / 1000) [] Option.none hdate hclock2 hus
      parseOffset_nil rfl rfl]
    rw [husval]
  | some off =>
    by_cases hoff0 : off = 0
    · subst hoff0
      simp only [reduceIte]
      have hshape : dateChars y mo dd ++
          'T' :: (clockChars hh mi ss ++
            ((if us / 1000 ≠ 0 then '.' :: natDigits 3 (us / 1000) else []) ++ ['Z']))
          = (dateChars y mo dd ++
              'T' :: (clockChars hh mi ss ++
                (if us / 1000 ≠ 0 then '.' :: natDigits 3 (us / 1000) else []))) ++ ['Z'] := by
        simp [List.append_assoc]
      rw [hshape, endsWith_of_append _ _ _ (by simp)]
      simp only [decide_True, if_true, ite_true, reduceIte]
      have hlen : ((dateChars y mo dd ++
            'T' :: (clockChars hh mi ss ++
              (if us / 1000 ≠ 0 then '.' :: natDigits 3 (us / 1000) else []))) ++ ['Z']).length - 1
          = (dateChars y mo dd ++
              'T' :: (clockChars hh mi ss ++
                (if us / 1000 ≠ 0 then '.' :: natDigits 3 (us / 1000) else []))).length := by
        simp
        try omega
      rw [hlen, List.take_left]
      have hshape2 : (dateChars y mo dd ++
            'T' :: (clockChars hh mi ss ++
              (if us / 1000 ≠ 0 then '.' :: natDigits 3 (us / 1000) else []))) ++ "+00:00".toList
          = dateChars y mo dd ++
              'T' :: (clockChars hh mi ss ++
                ((if us / 1000 ≠ 0 then '.' :: natDigits 3 (us / 1000) else []) ++ "+00:00".toList)) := by
        simp [List.append_assoc]
      rw [hshape2]
      rw [fromisoformatDT_parts y mo dd hh mi ss (us / 1000) ("+00:00".toList) (some 0) hdate
        hclock2 hus (by decide) (by decide) (by decide)]
      rw [husval]
    · have hgl : (dateChars y mo dd ++
          'T' :: (clockChars hh mi ss ++
            ((if us / 1000 ≠ 0 then '.' :: natDigits 3 (us / 1000) else []) ++
              (if off = 0 then ['Z'] else offsetChars off)))).getLast?
          = some (digitChar (off.natAbs % 60 % 10)) := by
        rw [if_neg hoff0]
        rw [List.getLast?_append_of_ne_nil _ (by simp),
          show ('T' :: (clockChars hh mi ss ++
              ((if us / 1000 ≠ 0 then '.' :: natDigits 3 (us / 1000) else []) ++ offsetChars off)))
            = ['T'] ++ (clockChars hh mi ss ++
              ((if us / 1000 ≠ 0 then '.' :: natDigits 3 (us / 1000) else []) ++ offsetChars off))
            from rfl,
          List.getLast?_append_of_ne_nil _ (by simp [offsetChars]),
          List.getLast?_append_of_ne_nil _ (by simp [offsetChars]),
          List.getLast?_append_of_ne_nil _ (by simp [offsetChars])]
        exact getLast?_offsetChars off
      rw [endsWith_single_ne _ 'Z' _ hgl (digitChar_ne 'Z' charVal_z _)]
      simp only [Bool.false_eq_true, if_false, ite_false, if_neg hoff0]
      have hoffhead : headIsDigit (offsetChars off) = false := by
        unfold offsetChars
        by_cases hneg : off < 0
        · rw [if_pos hneg]
          simp [headIsDigit, charVal_minus]
        · rw [if_neg hneg]
          simp [headIsDigit, charVal_plus]
      have hoffdot : headIsDot (offsetChars off) = false := by
        unfold offsetChars
        by_cases hneg : off < 0
        · rw [if_pos hneg]
          simp [headIsDot]
        · rw [if_neg hneg]
          simp [headIsDot]
      rw [fromisoformatDT_parts y mo dd hh mi ss (us / 1000) (offsetChars off) (some off) hdate
        hclock2 hus (parseOffset_offsetChars off htz) hoffhead hoffdot]
      rw [husval]

/-- Round-trip of the registered `date` codec pair. -/
theorem json_to_date_date_to_json (d : Date) (hv : d.Valid) :
    json_to_date (date_to_json d) = .ok d := by
  obtain ⟨y, mo, dd⟩ := d
  unfold json_to_date date_to_json
  rw [string_toList_mk]
  rw [show dateChars y mo dd = dateChars y mo dd ++ [] from by simp]
  rw [parseDatePart_dateChars y mo dd [] hv]

/-- The text `time_to_json` produces for a timezone-naive time: the clock,
then a 3-digit millisecond fraction when the microsecond component is
nonzero. -/
theorem time_to_json_chars (t : Time) (htz : t.tz = Option.none) :
    time_to_json t = .ok (String.mk (clockChars t.hour t.minute t.second ++
      (if t.microsecond ≠ 0 then '.' :: natDigits 3 (t.microsecond / 1000) else []))) := by
  obtain ⟨hh, mi, ss, us, tz⟩ := t
  simp only at htz
  subst htz
  unfold time_to_json fracChars
  simp only [Option.isSome_none, Bool.false_eq_true, if_false, ite_false]
  by_cases h0 : us ≠ 0
  · simp only [if_pos h0]
    rw [show natDigits 6 us = natDigits 3 (us / 10 ^ 3) ++ natDigits 3 (us % 10 ^ 3) from
      natDigits_add 3 3 us]
    rw [show (12 : Nat) = (clockChars hh mi ss).length + 4 from by simp [clockChars]]
    rw [List.take_append]
    norm_num
  · simp only [if_neg h0, List.append_nil]

/-- Round-trip of the time codec pair of `json_util` for timezone-naive
times with whole-millisecond precision (`time_to_json` raises on aware
times and truncates to milliseconds). -/
theorem json_to_time_time_to_json (t : Time) (hv : t.Valid) (htz : t.tz = Option.none)
    (hms : t.microsecond % 1000 = 0) :
    ∃ s, time_to_json t = .ok s ∧ json_to_time s = .ok t := by
  refine ⟨_, time_to_json_chars t htz, ?_⟩
  obtain ⟨hh, mi, ss, us, tz⟩ := t
  simp only at htz hms
  subst htz
  obtain ⟨hclock, _⟩ := hv
  simp only at hclock
  unfold json_to_time
  rw [string_toList_mk]
  simp only
  have hus : us / 1000 < 1000 := by
    obtain ⟨_, _, _, h4⟩ := hclock
    omega
  have husval : us / 1000 * 1000 = us := by omega
  have hclock2 : ValidClock hh mi ss (us / 1000 * 1000) := by rw [husval]; exact hclock
  have hcond : (us ≠ 0) = (us / 1000 ≠ 0) := by
    simp only [ne_eq, eq_iff_iff]
    constructor <;> intro hx hy <;> omega
  simp only [hcond]
  rw [show clockChars hh mi ss ++ (if us / 1000 ≠ 0 then '.' :: natDigits 3 (us / 1000) else [])
      = clockChars hh mi ss ++ ((if us / 1000 ≠ 0 then '.' :: natDigits 3 (us / 1000) else []) ++ [])
    from by simp]
  rw [parseClockPart_clockChars hh mi ss (us / 1000) [] Option.none hclock2 hus
    parseOffset_nil rfl rfl]
  rw [husval]

/-! ### Declared field types

`Ty` is the universe of Python type expressions appearing as field
annotations: plain classes, parameterised generic aliases (`List[T]`,
`Dict[K, V]`, ...), bare container classes, unions, enumeration classes
(identified by their member values, modelled as integers) and dataclasses
(referenced by name into an environment). `typing.NewType` aliases are
not modelled (`_unwrap_alias` is the identity on everything else). -/

inductive Ty where
  | intT
  | strT
  | boolT
  | noneT
  | uuidT
  | decimalT
  | datetimeT
  | timeT
  | dateT
  | enumT (cases : List Int)
  | clist (t : Ty)
  | ctuple (t : Ty)
  | cset (t : Ty)
  | cfset (t : Ty)
  | cdict (k v : Ty)
  | bareList
  | bareTuple
  | bareSet
  | bareFrozenset
  | bareDict
  | union (ts : List Ty)
  | dataclassT (name : String)
  | objT
  deriving Repr

/-! ### Runtime / tree values

`Val` covers both typed in-memory values and the JSON-like tree values the
serializer exchanges (Python does not distinguish them either). `obj`
stands for an instance of some class the serializer knows nothing about
(no registered codec, not an enum, container or dataclass, and not a
tree-native scalar). Sets are modelled with their iteration order made
explicit as a list. -/

inductive Val where
  | none
  | bool (b : Bool)
  | int (n : Int)
  | str (s : String)
  | list (l : List Val)
  | tuple (l : List Val)
  | set (l : List Val)
  | fset (l : List Val)
  | dict (entries : List (Val × Val))
  | uuid (s : String)
  | decimal (s : String)
  | datetime (d : Datetime)
  | time (t : Time)
  | date (d : Date)
  | enumv (cases : List Int) (v : Int)
  | inst (name : String) (fields : List (String × Val))
  | obj (n : Nat)
  deriving Repr

abbrev Fields := List (String × Ty)
abbrev Env := List (String × Fields)

def lookupEnv : Env → String → Option Fields
  | [], _ => Option.none
  | (n, fs) :: rest, name => if n = name then some fs else lookupEnv rest name

/-- Remove the first environment entry with the given name, returning its
fields and the remainder. -/
def extractEntry : Env → String → Option (Fields × Env)
  | [], _ => Option.none
  | (n, fs) :: rest, name =>
    if n = name then some (fs, rest)
    else
      match extractEntry rest name with
      | some (fs2, rem) => some (fs2, (n, fs) :: rem)
      | Option.none => Option.none

theorem extractEntry_length :
    ∀ (env : Env) (name : String) (fs : Fields) (rem : Env),
      extractEntry env name = some (fs, rem) → rem.length + 1 = env.length := by
  intro env
  induction env with
  | nil => intro name fs rem h; simp [extractEntry] at h
  | cons e rest ih =>
    intro name fs rem h
    obtain ⟨n, nfs⟩ := e
    simp only [extractEntry] at h
    by_cases hn : n = name
    · simp [hn] at h
      simp [← h.2, List.length_cons]
    · simp only [hn, if_false] at h
      cases hrec : extractEntry rest name with
      | none => rw [hrec] at h; simp at h
      | some p =>
        obtain ⟨fs2, rem2⟩ := p
        rw [hrec] at h
        simp at h
        have := ih name fs2 rem2 hrec
        simp [← h.2, List.length_cons]
        omega

/-- Python key equality between a dict key and a field-name string (equality
of a non-string key with a string is `False`). -/
def isStrKey (k : Val) (name : String) : Bool :=
  match k with
  | .str s => s = name
  | _ => false

/-- Python string lookup into a dict-shaped tree value (`raw[name]` /
`raw.get(name)`): the first entry whose key is the text `name`. -/
def lookupField : List (Val × Val) → String → Option Val
  | [], _ => Option.none
  | (k, v) :: rest, name =>
    if isStrKey k name then some v else lookupField rest name

/-- `typing.get_origin` on the modelled type expressions. -/
inductive Origin where
  | listO
  | tupleO
  | setO
  | frozensetO
  | dictO
  | unionO
  deriving DecidableEq, Repr

def getOrigin : Ty → Option Origin
  | .clist _ => some .listO
  | .ctuple _ => some .tupleO
  | .cset _ => some .setO
  | .cfset _ => some .frozensetO
  | .cdict _ _ => some .dictO
  | .union _ => some .unionO
  | _ => Option.none

/-- Membership of a plain class in `RecordSerializer._ALLOWED_CONTAINERS`. -/
def isBareContainer : Ty → Bool
  | .bareList | .bareTuple | .bareSet | .bareFrozenset | .bareDict => true
  | _ => false

/-! ### Simple serializer: encoding

`_encode_value` dispatches on the runtime type of the value, in the
source's branch order: registered codec, enum, `dict`, other allowed
containers, dataclass, passthrough. The registered codecs are the five
built-ins installed in `RecordSerializer.__init__` (registered dataclasses
re-use `_encode_dataclass`, giving the same result as the dataclass
branch). -/

mutual

def encodeValue : Val → Except Err Val
  | .uuid s => .ok (.str s)
  | .decimal s => .ok (.str s)
  | .datetime d => .ok (.str (datetime_to_json d))
  | .time t =>
    match time_to_json t with
    | .ok s => .ok (.str s)
    | .error e => .error e
  | .date d => .ok (.str (date_to_json d))
  | .enumv _ v => .ok (.int v)
  | .dict entries =>
    match encodeEntries entries with
    | .ok es => .ok (.dict es)
    | .error e => .error e
  | .list l =>
    match encodeList l with
    | .ok es => .ok (.list es)
    | .error e => .error e
  | .tuple l =>
    match encodeList l with
    | .ok es => .ok (.list es)
    | .error e => .error e
  | .set l =>
    match encodeList l with
    | .ok es => .ok (.list es)
    | .error e => .error e
  | .fset l =>
    match encodeList l with
    | .ok es => .ok (.list es)
    | .error e => .error e
  | .inst _ fields =>
    match encodeFields fields with
    | .ok es => .ok (.dict es)
    | .error e => .error e
  | .none => .ok .none
  | .bool b => .ok (.bool b)
  | .int n => .ok (.int n)
  | .str s => .ok (.str s)
  | .obj n => .ok (.obj n)

def encodeList : List Val → Except Err (List Val)
  | [] => .ok []
  | v :: rest =>
    match encodeValue v with
    | .error e => .error e
    | .ok w =>
      match encodeList rest with
      | .error e => .error e
      | .ok ws => .ok (w :: ws)

def encodeEntries : List (Val × Val) → Except Err (List (Val × Val))
  | [] => .ok []
  | (k, v) :: rest =>
    match encodeValue k with
    | .error e => .error e
    | .ok k2 =>
      match encodeValue v with
      | .error e => .error e
      | .ok v2 =>
        match encodeEntries rest with
        | .error e => .error e
        | .ok ws => .ok ((k2, v2) :: ws)

def encodeFields : List (String × Val) → Except Err (List (Val × Val))
  | [] => .ok []
  | (n, v) :: rest =>
    match encodeValue v with
    | .error e => .error e
    | .ok w =>
      match encodeFields rest with
      | .error e => .error e
      | .ok ws => .ok ((Val.str n, w) :: ws)

end

/-- Model of `RecordSerializer.serialize_to_dict`: reject non-dataclasses,
then `_encode_dataclass` (a tree-mapping keyed by field name). -/
def serialize_to_dict (v : Val) : Except Err Val :=
  match v with
  | .inst _ fields =>
    match encodeFields fields with
    | .ok es => .ok (.dict es)
    | .error e => .error e
  | _ => .error .serializerTypeError

def isNoneTy : Ty → Bool
  | .noneT => true
  | _ => false

def isNoneVal : Val → Bool
  | .none => true
  | _ => false

/-! ### Simple serializer: registration-time decoder derivation

`register_dataclass` walks the declared type graph once, validating every
field type and building decoders; `in_construction` breaks cycles. The
walk is modelled statelessly: `rem` is the current complement of the
`in_construction` map (the environment entries not yet visited), and each
function returns the updated remainder, whose length never grows — that
bound is the termination measure, exactly the reason the Python recursion
terminates. -/

mutual

/-- The per-field dispatch in `_make_dataclass_decoder` (lines 144-176):
bare containers are rejected, a `Union` must be `Optional[T]`, other
generic origins go to the container path, plain classes to the scalar
path. -/
def deriveField (rem : Env) (t : Ty) : Except Err { r : Env // r.length ≤ rem.length } :=
  match getOrigin t with
  | Option.none =>
    if isBareContainer t then .error .serializerTypeError
    else deriveScalar rem t
  | some .unionO =>
    match t with
    | .union [t1, t2] =>
      if isNoneTy t2 then
        match getOrigin t1 with
        | Option.none => deriveScalar rem t1
        | some _ => deriveContainer rem t1
      else .error .serializerTypeError
    | _ => .error .serializerTypeError
  | some _ => deriveContainer rem t
termination_by (rem.length, sizeOf t, 2)

/-- `_make_scalar_decoder`: registered codec, enum, dataclass (recursing
into the derivation, where the cycle guard applies), or the identity
decoder. `issubclass` on a generic alias or a `Union` raises `TypeError`
in Python, so those inputs fail here. -/
def deriveScalar (rem : Env) (t : Ty) : Except Err { r : Env // r.length ≤ rem.length } :=
  match t with
  | .uuidT | .decimalT | .datetimeT | .timeT | .dateT => .ok ⟨rem, le_refl _⟩
  | .enumT _ => .ok ⟨rem, le_refl _⟩
  | .dataclassT n =>
    match h : extractEntry rem n with
    | some (fs, rem2) =>
      match deriveClass rem2 fs with
      | .ok ⟨r, hr⟩ =>
        .ok ⟨r, by have hlen := extractEntry_length rem n fs rem2 h; omega⟩
      | .error e => .error e
    | Option.none => .ok ⟨rem, le_refl _⟩
  | .clist _ | .ctuple _ | .cset _ | .cfset _ | .cdict _ _ | .union _ => .error .typeError
  | _ => .ok ⟨rem, le_refl _⟩
termination_by (rem.length, sizeOf t, 0)
decreasing_by
  simp_wf
  have hlen := extractEntry_length rem n fs rem2 h
  simp only [Prod.lex_def]
  left
  omega

/-- `_make_container_decoder`: origin must be an allowed container;
`dict` derives key and value decoders, the rest derive one element
decoder (all through the scalar path, as in the source). -/
def deriveContainer (rem : Env) (t : Ty) : Except Err { r : Env // r.length ≤ rem.length } :=
  match t with
  | .cdict k v =>
    match deriveScalar rem k with
    | .error e => .error e
    | .ok ⟨r1, h1⟩ =>
      match deriveScalar r1 v with
      | .error e => .error e
      | .ok ⟨r2, h2⟩ => .ok ⟨r2, le_trans h2 h1⟩
  | .clist e => deriveScalar rem e
  | .ctuple e => deriveScalar rem e
  | .cset e => deriveScalar rem e
  | .cfset e => deriveScalar rem e
  | _ => .error .serializerTypeError
termination_by (rem.length, sizeOf t, 1)
decreasing_by
  all_goals simp_wf
  all_goals simp only [Prod.lex_def]
  all_goals simp_all
  all_goals omega

/-- The field loop of `_make_dataclass_decoder`, threading the visited
state through the fields in declaration order. -/
def deriveClass (rem : Env) (fs : Fields) : Except Err { r : Env // r.length ≤ rem.length } :=
  match fs with
  | [] => .ok ⟨rem, le_refl _⟩
  | (_, t) :: rest =>
    match deriveField rem t with
    | .error e => .error e
    | .ok ⟨r1, h1⟩ =>
      match deriveClass r1 rest with
      | .error e => .error e
      | .ok ⟨r2, h2⟩ => .ok ⟨r2, le_trans h2 h1⟩
termination_by (rem.length, sizeOf fs, 3)
decreasing_by
  all_goals simp_wf
  all_goals simp only [Prod.lex_def]
  all_goals simp_all
  all_goals omega

end

/-- Model of `RecordSerializer.register_dataclass`: reject non-dataclasses,
then derive decoders for the whole reachable class graph (the argument
itself is marked in-construction before its fields are walked). -/
def registerDataclass (env : Env) (name : String) : Except Err Unit :=
  match extractEntry env name with
  | some (fs, rem) =>
    match deriveClass rem fs with
    | .ok _ => .ok ()
    | .error e => .error e
  | Option.none => .error .serializerTypeError

/-! ### Simple serializer: running the derived decoders -/

theorem lookupField_sizeOf :
    ∀ (entries : List (Val × Val)) (name : String) (v : Val),
      lookupField entries name = some v → sizeOf v < sizeOf entries := by
  intro entries
  induction entries with
  | nil => intro name v h; simp [lookupField] at h
  | cons e rest ih =>
    intro name v h
    obtain ⟨k, w⟩ := e
    simp only [lookupField] at h
    by_cases hk : isStrKey k name
    · rw [if_pos hk] at h
      cases h
      simp only [List.cons.sizeOf_spec, Prod.mk.sizeOf_spec]
      omega
    · rw [if_neg hk] at h
      have := ih name v h
      simp only [List.cons.sizeOf_spec]
      omega

/-- Python `raw[name]` on a tree value: dict lookup (raising `KeyError` for
a missing key), `TypeError` on anything unsubscriptable by a string. -/
def getItem (v : Val) (name : String) : Except Err Val :=
  match v with
  | .dict entries =>
    match lookupField entries name with
    | some x => .ok x
    | Option.none => .error .keyError
  | _ => .error .typeError

theorem getItem_sizeOf (v : Val) (name : String) (x : Val)
    (h : getItem v name = .ok x) : sizeOf x < sizeOf v := by
  unfold getItem at h
  split at h
  · next entries =>
      split at h
      · next y hl =>
          cases h
          have := lookupField_sizeOf entries name x hl
          simp only [Val.dict.sizeOf_spec]
          omega
      · next => cases h
  · next => cases h

mutual

/-- The decoder `_make_dataclass_decoder` attaches to one field, applied to
the tree value found under the field's key.  The optional wrapper maps an
explicit tree `null` to `None` without invoking the inner decoder;
otherwise dispatch follows the derivation-time selection.  Field types the
derivation rejects never get a decoder; the model returns the
registration-time error for them (they are unreachable through
`load_dict`). -/
def decodeFieldD (env : Env) (t : Ty) (v : Val) : Except Err Val :=
  match getOrigin t with
  | Option.none =>
    if isBareContainer t then .error .serializerTypeError
    else decodeScalarD env t v
  | some .unionO =>
    match t with
    | .union [t1, t2] =>
      if isNoneTy t2 then
        if isNoneVal v then .ok .none
        else
          match getOrigin t1 with
          | Option.none => decodeScalarD env t1 v
          | some _ => decodeContainerD env t1 v
      else .error .serializerTypeError
    | _ => .error .serializerTypeError
  | some _ => decodeContainerD env t v
termination_by (sizeOf v, 1, 4 * sizeOf t + 2)
decreasing_by
  all_goals simp_wf
  all_goals simp only [Prod.lex_def]
  all_goals try simp
  all_goals omega

/-- The decoder `_make_scalar_decoder` selects: registered codec, enum
lookup (`decode_enum`), nested dataclass decoder (`decode_dataclass` with
the nested class's field decoders), or the identity.  `issubclass` on a
generic alias raises `TypeError`, so such types fail. -/
def decodeScalarD (env : Env) (t : Ty) (v : Val) : Except Err Val :=
  match t with
  | .uuidT =>
    match v with
    | .str s => .ok (.uuid s)
    | _ => .error .typeError
  | .decimalT =>
    match v with
    | .str s => .ok (.decimal s)
    | .int n => .ok (.decimal (toString n))
    | _ => .error .typeError
  | .datetimeT =>
    match v with
    | .str s =>
      match json_to_datetime s with
      | .ok d => .ok (.datetime d)
      | .error e => .error e
    | _ => .error .typeError
  | .timeT =>
    match v with
    | .str s =>
      match json_to_time s with
      | .ok d => .ok (.time d)
      | .error e => .error e
    | _ => .error .typeError
  | .dateT =>
    match v with
    | .str s =>
      match json_to_date s with
      | .ok d => .ok (.date d)
      | .error e => .error e
    | _ => .error .typeError
  | .enumT cases =>
    match v with
    | .int m => if m ∈ cases then .ok (.enumv cases m) else .error .valueError
    | _ => .error .valueError
  | .dataclassT n =>
    match lookupEnv env n with
    | some fs =>
      match decodeClassFields env fs v with
      | .ok params => .ok (.inst n params)
      | .error e => .error e
    | Option.none => .ok v
  | .clist _ | .ctuple _ | .cset _ | .cfset _ | .cdict _ _ | .union _ => .error .typeError
  | _ => .ok v
termination_by (sizeOf v, 1, 4 * sizeOf t)
decreasing_by
  all_goals simp_wf
  all_goals simp only [Prod.lex_def]
  all_goals try simp
  all_goals omega

/-- The decoder `_make_container_decoder` builds:
`decode_dict` for mappings, `decode_collection` with the target kind as
factory for the other containers. -/
def decodeContainerD (env : Env) (t : Ty) (v : Val) : Except Err Val :=
  match t with
  | .cdict kt vt =>
    match v with
    | .dict entries =>
      match decodeDictPairs env kt vt entries with
      | .ok es => .ok (.dict es)
      | .error e => .error e
    | _ => .error .typeError
  | .clist et =>
    match decodeIterable env et v with
    | .ok es => .ok (.list es)
    | .error e => .error e
  | .ctuple et =>
    match decodeIterable env et v with
    | .ok es => .ok (.tuple es)
    | .error e => .error e
  | .cset et =>
    match decodeIterable env et v with
    | .ok es => .ok (.set es)
    | .error e => .error e
  | .cfset et =>
    match decodeIterable env et v with
    | .ok es => .ok (.fset es)
    | .error e => .error e
  | _ => .error .serializerTypeError
termination_by (sizeOf v, 1, 4 * sizeOf t + 1)
decreasing_by
  all_goals simp_wf
  all_goals simp only [Prod.lex_def]
  all_goals simp_all
  all_goals omega

/-- Python iteration over the raw tree value in `decode_collection`
(`for e in raw`): sequences and sets yield their members, a mapping yields
its keys.  Iteration of strings (character by character) is left out of the
model; values that are not iterable raise `TypeError` as in Python. -/
def decodeIterable (env : Env) (et : Ty) (v : Val) : Except Err (List Val) :=
  match v with
  | .list l => decodeElems env et l
  | .tuple l => decodeElems env et l
  | .set l => decodeElems env et l
  | .fset l => decodeElems env et l
  | .dict entries => decodeKeys env et entries
  | _ => .error .typeError
termination_by (sizeOf v, 1, 4 * sizeOf et)
decreasing_by
  all_goals simp_wf
  all_goals simp only [Prod.lex_def]
  all_goals simp_all
  all_goals omega

def decodeElems (env : Env) (et : Ty) (l : List Val) : Except Err (List Val) :=
  match l with
  | [] => .ok []
  | x :: rest =>
    match decodeScalarD env et x with
    | .error e => .error e
    | .ok y =>
      match decodeElems env et rest with
      | .error e => .error e
      | .ok ys => .ok (y :: ys)
termination_by (sizeOf l, 0, 0)
decreasing_by
  all_goals simp_wf
  all_goals simp only [Prod.lex_def]
  all_goals simp_all
  all_goals omega

def decodeKeys (env : Env) (et : Ty) (entries : List (Val × Val)) : Except Err (List Val) :=
  match entries with
  | [] => .ok []
  | (k, _) :: rest =>
    match decodeScalarD env et k with
    | .error e => .error e
    | .ok y =>
      match decodeKeys env et rest with
      | .error e => .error e
      | .ok ys => .ok (y :: ys)
termination_by (sizeOf entries, 0, 0)
decreasing_by
  all_goals simp_wf
  all_goals simp only [Prod.lex_def]
  all_goals simp_all
  all_goals omega

/-- `decode_dict`: apply the key and value decoders entrywise. -/
def decodeDictPairs (env : Env) (kt vt : Ty) (entries : List (Val × Val)) :
    Except Err (List (Val × Val)) :=
  match entries with
  | [] => .ok []
  | (k, w) :: rest =>
    match decodeScalarD env kt k with
    | .error e => .error e
    | .ok k2 =>
      match decodeScalarD env vt w with
      | .error e => .error e
      | .ok w2 =>
        match decodeDictPairs env kt vt rest with
        | .error e => .error e
        | .ok ws => .ok ((k2, w2) :: ws)
termination_by (sizeOf entries, 0, 0)
decreasing_by
  all_goals simp_wf
  all_goals simp only [Prod.lex_def]
  all_goals simp_all
  all_goals omega

/-- `decode_dataclass`: look each declared field up by name in the raw
tree value (`raw[field_name]`) and run its decoder, in declaration
order. -/
def decodeClassFields (env : Env) (fs : Fields) (v : Val) :
    Except Err (List (String × Val)) :=
  match fs with
  | [] => .ok []
  | (fname, ft) :: rest =>
    match h : getItem v fname with
    | .error e => .error e
    | .ok rawv =>
      match decodeFieldD env ft rawv with
      | .error e => .error e
      | .ok w =>
        match decodeClassFields env rest v with
        | .error e => .error e
        | .ok ws => .ok ((fname, w) :: ws)
termination_by (sizeOf v, 0, sizeOf fs)
decreasing_by
  all_goals simp_wf
  all_goals simp only [Prod.lex_def]
  · have := getItem_sizeOf v _ _ h
    omega
  · simp
    try omega

end

/-- Model of `RecordSerializer.load_dict`: reject non-dataclasses, register
the class on first use (where schema errors surface, before any data is
touched), then run the derived class decoder on the tree value. -/
def load_dict (env : Env) (name : String) (raw : Val) : Except Err Val :=
  match lookupEnv env name with
  | Option.none => .error .serializerTypeError
  | some fs =>
    match registerDataclass env name with
    | .error e => .error e
    | .ok _ =>
      match decodeClassFields env fs raw with
      | .ok params => .ok (.inst name params)
      | .error e => .error e

/-! ### Type-hint reflection (`reflection.py`)

`TypeInfo` must be an inductive (its `type_args` are nested `TypeInfo`
values); accessors replace the dataclass field projections. -/

inductive TypeInfo where
  | mk (realType : Ty) (hintedType : Ty) (typeArgs : List TypeInfo) (isOptional : Bool)
  deriving Repr

def TypeInfo.realType : TypeInfo → Ty
  | .mk r _ _ _ => r

def TypeInfo.hintedType : TypeInfo → Ty
  | .mk _ h _ _ => h

def TypeInfo.typeArgs : TypeInfo → List TypeInfo
  | .mk _ _ a _ => a

def TypeInfo.isOptional : TypeInfo → Bool
  | .mk _ _ _ o => o

/-- Model of `reflection.parse_typehint`.  The source branches on
`get_origin`: no origin wraps the hint directly with no arguments; a
`Union` origin must be exactly `Optional[T]` (two alternatives, the second
`NoneType`) and keeps the inner hint unparsed as `real_type`; any other
origin takes the bare origin class as `real_type` and recursively parses
the type arguments.  The dispatch is expanded per generic constructor. -/
def parse_typehint : Ty → Except Err TypeInfo
  | .clist a =>
    match parse_typehint a with
    | .ok ti => .ok (.mk .bareList (.clist a) [ti] false)
    | .error e => .error e
  | .ctuple a =>
    match parse_typehint a with
    | .ok ti => .ok (.mk .bareTuple (.ctuple a) [ti] false)
    | .error e => .error e
  | .cset a =>
    match parse_typehint a with
    | .ok ti => .ok (.mk .bareSet (.cset a) [ti] false)
    | .error e => .error e
  | .cfset a =>
    match parse_typehint a with
    | .ok ti => .ok (.mk .bareFrozenset (.cfset a) [ti] false)
    | .error e => .error e
  | .cdict k v =>
    match parse_typehint k with
    | .error e => .error e
    | .ok tk =>
      match parse_typehint v with
      | .error e => .error e
      | .ok tv => .ok (.mk .bareDict (.cdict k v) [tk, tv] false)
  | .union ts =>
    match ts with
    | [t1, .noneT] => .ok (.mk t1 (.union ts) [] true)
    | _ => .error .typeError
  | t => .ok (.mk t t [] false)

/-! ### Deep-reflection decoder (`deep_reflection/data.py`)

This variant resolves hints at decode time.  Every recursive step consumes
one unit of fuel, modelling the Python recursion limit: declared defaults
let `_construct_dataclass` re-enter on values that are not part of the
input, so self-referential defaults genuinely make Python recurse without
bound (`RecursionError`). -/

/-- A declared field of the deep variant: name, type hint, and declared
default if any (`default` and `default_factory` are merged; the model
stores the value the factory would produce). -/
abbrev DField := String × Ty × Option Val

abbrev DEnv := List (String × List DField)

def lookupDEnv : DEnv → String → Option (List DField)
  | [], _ => Option.none
  | (n, fs) :: rest, name => if n = name then some fs else lookupDEnv rest name

mutual

/-- Structural equality test on type expressions (`==` / `is` between the
modelled classes). -/
def Ty.beq : Ty → Ty → Bool
  | .intT, .intT => true
  | .strT, .strT => true
  | .boolT, .boolT => true
  | .noneT, .noneT => true
  | .uuidT, .uuidT => true
  | .decimalT, .decimalT => true
  | .datetimeT, .datetimeT => true
  | .timeT, .timeT => true
  | .dateT, .dateT => true
  | .objT, .objT => true
  | .enumT a, .enumT b => a == b
  | .clist a, .clist b => Ty.beq a b
  | .ctuple a, .ctuple b => Ty.beq a b
  | .cset a, .cset b => Ty.beq a b
  | .cfset a, .cfset b => Ty.beq a b
  | .cdict k v, .cdict k2 v2 => Ty.beq k k2 && Ty.beq v v2
  | .bareList, .bareList => true
  | .bareTuple, .bareTuple => true
  | .bareSet, .bareSet => true
  | .bareFrozenset, .bareFrozenset => true
  | .bareDict, .bareDict => true
  | .union ts, .union us => Ty.beqList ts us
  | .dataclassT n, .dataclassT m => n == m
  | _, _ => false

def Ty.beqList : List Ty → List Ty → Bool
  | [], [] => true
  | a :: as1, b :: bs => Ty.beq a b && Ty.beqList as1 bs
  | _, _ => false

end

/-- The runtime class of a value (`type(x)`); `obj` values belong to some
class the serializer knows nothing about. -/
def runtimeTy : Val → Ty
  | .none => .noneT
  | .bool _ => .boolT
  | .int _ => .intT
  | .str _ => .strT
  | .list _ => .bareList
  | .tuple _ => .bareTuple
  | .set _ => .bareSet
  | .fset _ => .bareFrozenset
  | .dict _ => .bareDict
  | .uuid _ => .uuidT
  | .decimal _ => .decimalT
  | .datetime _ => .datetimeT
  | .time _ => .timeT
  | .date _ => .dateT
  | .enumv cases _ => .enumT cases
  | .inst n _ => .dataclassT n
  | .obj _ => .objT

/-- `issubclass` between plain runtime classes (`bool` is the only modelled
proper subclass, of `int`). -/
def subclassB (source target : Ty) : Bool :=
  Ty.beq source target ||
    (match source, target with
     | .boolT, .intT => true
     | _, _ => false)

/-- Model of `reflection.is_real_collection` on a plain class. -/
def isRealCollB : Ty → Bool
  | .bareList | .bareTuple | .bareSet | .bareFrozenset | .bareDict => true
  | _ => false

/-- Model of `reflection.is_dict_compatible` on a plain class. -/
def isDictCompatB : Ty → Bool
  | .bareDict => true
  | _ => false

/-- Model of `reflection.is_list_compatible` on a plain class. -/
def isListCompatB : Ty → Bool
  | .bareList | .bareTuple | .bareSet | .bareFrozenset => true
  | _ => false

/-- Model of `reflection.is_collection_constructible` (all modelled classes
are concrete, so `isabstract` is `False`). -/
def is_collection_constructible (target source : Ty) : Bool :=
  (subclassB source target) ||
    (isDictCompatB target && subclassB source .bareDict) ||
    (isListCompatB target && isRealCollB source)

/-- `issubclass(c, Collection)`-style tests applied to `TypeInfo.real_type`:
on a parameterised alias or a union, Python `issubclass` raises
`TypeError` (which happens when the descriptor came from an optional
generic hint, whose `real_type` is the unparsed inner alias). -/
def realCollectionTI : Ty → Except Err Bool
  | .clist _ | .ctuple _ | .cset _ | .cfset _ | .cdict _ _ | .union _ => .error .typeError
  | t => .ok (isRealCollB t)

/-- `issubclass(real_type, Mapping)` with the same alias caveat. -/
def mappingTI : Ty → Except Err Bool
  | .clist _ | .ctuple _ | .cset _ | .cfset _ | .cdict _ _ | .union _ => .error .typeError
  | .bareDict => .ok true
  | _ => .ok false

/-- `issubclass(real_type, Hashable)` with the same alias caveat. -/
def hashableTI : Ty → Except Err Bool
  | .clist _ | .ctuple _ | .cset _ | .cfset _ | .cdict _ _ | .union _ => .error .typeError
  | .bareList | .bareSet | .bareDict | .dataclassT _ => .ok false
  | _ => .ok true

def isDataclassTy : Ty → Bool
  | .dataclassT _ => true
  | _ => false

/-- `isinstance(v, real_type)`; raises on aliases like `issubclass`. -/
def describesB : Ty → Val → Except Err Bool
  | .clist _, _ | .ctuple _, _ | .cset _, _ | .cfset _, _ | .cdict _ _, _ | .union _, _ =>
    .error .typeError
  | .intT, v => .ok (match v with | .int _ => true | .bool _ => true | _ => false)
  | .boolT, v => .ok (match v with | .bool _ => true | _ => false)
  | .strT, v => .ok (match v with | .str _ => true | _ => false)
  | .noneT, v => .ok (isNoneVal v)
  | .uuidT, v => .ok (match v with | .uuid _ => true | _ => false)
  | .decimalT, v => .ok (match v with | .decimal _ => true | _ => false)
  | .datetimeT, v => .ok (match v with | .datetime _ => true | _ => false)
  | .timeT, v => .ok (match v with | .time _ => true | _ => false)
  | .dateT, v => .ok (match v with | .date _ => true | _ => false)
  | .enumT cs, v => .ok (match v with | .enumv cs2 _ => cs2 == cs | _ => false)
  | .dataclassT n, v => .ok (match v with | .inst m _ => m == n | _ => false)
  | .objT, v => .ok (match v with | .obj _ => true | _ => false)
  | .bareList, v => .ok (match v with | .list _ => true | _ => false)
  | .bareTuple, v => .ok (match v with | .tuple _ => true | _ => false)
  | .bareSet, v => .ok (match v with | .set _ => true | _ => false)
  | .bareFrozenset, v => .ok (match v with | .fset _ => true | _ => false)
  | .bareDict, v => .ok (match v with | .dict _ => true | _ => false)

/-- Python iteration (`for e in x`): sequence and set members, mapping
keys.  Iteration of strings is left out of the model. -/
def iterElems : Val → Except Err (List Val)
  | .list l => .ok l
  | .tuple l => .ok l
  | .set l => .ok l
  | .fset l => .ok l
  | .dict entries => .ok (entries.map Prod.fst)
  | _ => .error .typeError

/-- `int(s)` on text: an optional sign followed by digits (whitespace and
underscores are not modelled). -/
def pyIntOfString (s : String) : Except Err Int :=
  let digitsVal : List Char → Option Nat := fun cs =>
    cs.foldl (fun acc c => match acc, charVal c with
      | some a, some d => some (a * 10 + d)
      | _, _ => Option.none) (if cs.isEmpty then Option.none else some 0)
  match s.toList with
  | '-' :: rest =>
    match digitsVal rest with
    | some n => .ok (-(n : Int))
    | Option.none => .error .valueError
  | cs =>
    match digitsVal cs with
    | some n => .ok (n : Int)
    | Option.none => .error .valueError

/-- Class constructor applied to a single value (`TypeInfo.create`), for
the constructors reachable through `cast`: container copies, `int`/`str`
conversion, the registered scalar classes, enum value lookup.  Calls
Python would reject raise `TypeError`/`ValueError` likewise. -/
def createVal (rt : Ty) (v : Val) : Except Err Val :=
  match rt with
  | .bareList =>
    match iterElems v with
    | .ok l => .ok (.list l)
    | .error e => .error e
  | .bareTuple =>
    match iterElems v with
    | .ok l => .ok (.tuple l)
    | .error e => .error e
  | .bareSet =>
    match iterElems v with
    | .ok l => .ok (.set l)
    | .error e => .error e
  | .bareFrozenset =>
    match iterElems v with
    | .ok l => .ok (.fset l)
    | .error e => .error e
  | .bareDict =>
    match v with
    | .dict entries => .ok (.dict entries)
    | _ => .error .typeError
  | .intT =>
    match v with
    | .str s =>
      match pyIntOfString s with
      | .ok n => .ok (.int n)
      | .error e => .error e
    | .bool b => .ok (.int (if b then 1 else 0))
    | _ => .error .typeError
  | .strT =>
    match v with
    | .int n => .ok (.str (toString n))
    | _ => .error .typeError
  | .uuidT =>
    match v with
    | .str s => .ok (.uuid s)
    | _ => .error .typeError
  | .decimalT =>
    match v with
    | .str s => .ok (.decimal s)
    | .int n => .ok (.decimal (toString n))
    | _ => .error .typeError
  | .enumT cases =>
    match v with
    | .int m => if m ∈ cases then .ok (.enumv cases m) else .error .valueError
    | _ => .error .valueError
  | .noneT => .ok .none
  | _ => .error .typeError

/-- `TypeInfo.cast`: the value itself when `isinstance` succeeds, else the
class constructor applied to it. -/
def castVal (rt : Ty) (v : Val) : Except Err Val :=
  match describesB rt v with
  | .error e => .error e
  | .ok true => .ok v
  | .ok false => createVal rt v

/-- `raw_obj.get(field.name, Missing)` followed by the default fallback:
a missing key uses `field.default` (or the `default_factory` result) and
raises `TypeError` when the field declares neither. -/
def getRaw (raw : Val) (fname : String) (dflt : Option Val) : Except Err Val :=
  match raw with
  | .dict entries =>
    match lookupField entries fname with
    | some v => .ok v
    | Option.none =>
      match dflt with
      | some d => .ok d
      | Option.none => .error .typeError
  | _ => .error .typeError

mutual

/-- Model of `deep_reflection.data._construct_object`: explicit `None`
handling for optionals, then collection construction (shape check through
`is_collection_constructible`, plain cast when the hint had no type
arguments, element/entry-wise construction otherwise), then nested
dataclasses, then the scalar cast. -/
def constructObject (env : DEnv) (fuel : Nat) (ti : TypeInfo) (raw : Val) : Except Err Val :=
  match fuel with
  | 0 => .error .recursionError
  | fuel + 1 =>
    if isNoneVal raw then
      if ti.isOptional then .ok .none else .error .typeError
    else
      match realCollectionTI ti.realType with
      | .error e => .error e
      | .ok true =>
        if is_collection_constructible ti.realType (runtimeTy raw) then
          if ti.typeArgs.isEmpty then castVal ti.realType raw
          else
            match mappingTI ti.realType with
            | .error e => .error e
            | .ok true => constructGenericMapping env fuel ti raw
            | .ok false => constructGenericCollection env fuel ti raw
        else .error .typeError
      | .ok false =>
        if isDataclassTy ti.realType then
          match ti.realType, raw with
          | .dataclassT n, .dict entries => constructDataclass env fuel n (.dict entries)
          | _, _ => .error .typeError
        else castVal ti.realType raw

/-- `_construct_generic_collection`: construct every iterated member with
the element descriptor, then call the container class on the result. -/
def constructGenericCollection (env : DEnv) (fuel : Nat) (ti : TypeInfo) (raw : Val) :
    Except Err Val :=
  match fuel with
  | 0 => .error .recursionError
  | fuel + 1 =>
    match ti.typeArgs.head? with
    | Option.none => .error .typeError
    | some eti =>
      match iterElems raw with
      | .error e => .error e
      | .ok elems =>
        match constructElems env fuel eti elems with
        | .error e => .error e
        | .ok built =>
          match ti.realType with
          | .bareList => .ok (.list built)
          | .bareTuple => .ok (.tuple built)
          | .bareSet => .ok (.set built)
          | .bareFrozenset => .ok (.fset built)
          | _ => .error .typeError

def constructElems (env : DEnv) (fuel : Nat) (eti : TypeInfo) (elems : List Val) :
    Except Err (List Val) :=
  match fuel with
  | 0 => .error .recursionError
  | fuel + 1 =>
    match elems with
    | [] => .ok []
    | x :: rest =>
      match constructObject env fuel eti x with
      | .error e => .error e
      | .ok y =>
        match constructElems env fuel eti rest with
        | .error e => .error e
        | .ok ys => .ok (y :: ys)

/-- `_construct_generic_mapping`.  The `key_type_info` property performs
its checks and then falls through without a `return` statement, so `kti`
is `None`; constructing any entry therefore hits an `AttributeError`
(`None.is_real_collection`), modelled as `typeError`.  An empty mapping
succeeds because the entry generator is never driven. -/
def constructGenericMapping (env : DEnv) (fuel : Nat) (ti : TypeInfo) (raw : Val) :
    Except Err Val :=
  match fuel with
  | 0 => .error .recursionError
  | _ + 1 =>
    match mappingTI ti.realType with
    | .error e => .error e
    | .ok false => .error .typeError
    | .ok true =>
      match ti.typeArgs.head? with
      | Option.none => .error .typeError
      | some kti =>
        match hashableTI kti.realType with
        | .error e => .error e
        | .ok false => .error .typeError
        | .ok true =>
          match ti.typeArgs[1]? with
          | Option.none => .error .typeError
          | some _vti =>
            match raw with
            | .dict [] => .ok (.dict [])
            | _ => .error .typeError

/-- Model of `_construct_dataclass`: for every declared field, resolve its
hint, fetch the raw value by name (`raw_obj.get(field.name, Missing)`),
fall back to the declared default when the key is missing, fail when
there is none, and construct the field value. -/
def constructDataclass (env : DEnv) (fuel : Nat) (name : String) (raw : Val) :
    Except Err Val :=
  match fuel with
  | 0 => .error .recursionError
  | fuel + 1 =>
    match lookupDEnv env name with
    | Option.none => .error .typeError
    | some dfields =>
      match constructFieldsD env fuel dfields raw with
      | .ok params => .ok (.inst name params)
      | .error e => .error e

def constructFieldsD (env : DEnv) (fuel : Nat) (dfields : List DField) (raw : Val) :
    Except Err (List (String × Val)) :=
  match fuel with
  | 0 => .error .recursionError
  | fuel + 1 =>
    match dfields with
    | [] => .ok []
    | (fname, fty, dflt) :: rest =>
      match parse_typehint fty with
      | .error e => .error e
      | .ok ti =>
        match getRaw raw fname dflt with
        | .error e => .error e
        | .ok rawv =>
          match constructObject env fuel ti rawv with
          | .error e => .error e
          | .ok w =>
            match constructFieldsD env fuel rest raw with
            | .error e => .error e
            | .ok ws => .ok ((fname, w) :: ws)

end

/-- Model of `deep_reflection.data.dict_to_dataclass`: reject
non-dataclasses, then `_construct_dataclass`. -/
def dict_to_dataclass (env : DEnv) (fuel : Nat) (name : String) (raw : Val) :
    Except Err Val :=
  match lookupDEnv env name with
  | Option.none => .error .typeError
  | some _ => constructDataclass env fuel name raw

/-! ### Claims -/

/-- C5: the datetime codec turns the UTC timestamp 2021-04-23T09:05:16+00:00
into exactly the text "2021-04-23T09:05:16Z" and 2021-04-23T09:05:16.157178+00:00
into exactly "2021-04-23T09:05:16.157Z", and decoding either text yields the
original timestamp, to millisecond precision in the fractional case. -/
theorem claim_C5_timestamp_texts :
    datetime_to_json ⟨2021, 4, 23, 9, 5, 16, 0, some 0⟩ = "2021-04-23T09:05:16Z" ∧
    datetime_to_json ⟨2021, 4, 23, 9, 5, 16, 157178, some 0⟩ = "2021-04-23T09:05:16.157Z" ∧
    json_to_datetime "2021-04-23T09:05:16Z" = .ok ⟨2021, 4, 23, 9, 5, 16, 0, some 0⟩ ∧
    json_to_datetime "2021-04-23T09:05:16.157Z" =
      .ok ⟨2021, 4, 23, 9, 5, 16, 157000, some 0⟩ :=
  ⟨by decide, by decide, by rfl, by rfl⟩

/-- C6 counterexample: serializing an instance holding a value of a class with
no registered codec that is not an enum, container, dataclass or tree-native
scalar SUCCEEDS, emitting the unknown object unchanged into the tree, instead
of raising an unregistered-type error as the spec demands. -/
theorem claim_C6_counterexample :
    serialize_to_dict (.inst "P" [("x", .obj 0)]) = .ok (.dict [(.str "x", .obj 0)]) := by
  simp [serialize_to_dict, encodeFields, encodeValue]

/-- C6 amended: `_encode_value` ends in a bare `return obj`, so a value whose
runtime type has no registered codec and no enum/container/dataclass handling
is passed through unchanged — encoding never fails on it. -/
theorem claim_C6_passthrough_amended (n : Nat) :
    encodeValue (.obj n) = .ok (.obj n) := by
  simp [encodeValue]

/-- A self-referential record type: `Person` with `friends: List[Person]`. -/
def personEnv : Env :=
  [("Person", [("name", .strT), ("friends", .clist (.dataclassT "Person"))])]

/-- A depth-3 self-referential instance graph of `personEnv`. -/
def personDepth3 : Val :=
  .inst "Person" [("name", .str "a"),
    ("friends", .list [.inst "Person" [("name", .str "b"),
      ("friends", .list [.inst "Person" [("name", .str "c"),
        ("friends", .list [])]])]])]

/-- The tree-mapping encoding of `personDepth3`. -/
def personDoc3 : Val :=
  .dict [(.str "name", .str "a"),
    (.str "friends", .list [.dict [(.str "name", .str "b"),
      (.str "friends", .list [.dict [(.str "name", .str "c"),
        (.str "friends", .list [])]])]])]

/-- C3: deriving a decoder for a record type whose field refers back to the
record type itself through a container terminates with success (the derivation
functions are total, their termination measure being the shrinking complement
of the `in_construction` map), and a depth-3 self-referential instance graph
encodes and decodes back to itself. -/
theorem claim_C3_cycle_termination :
    registerDataclass personEnv "Person" = .ok () ∧
    serialize_to_dict personDepth3 = .ok personDoc3 ∧
    load_dict personEnv "Person" personDoc3 = .ok personDepth3 := by
  refine ⟨?_, ?_, ?_⟩
  · simp [personEnv, registerDataclass, extractEntry, deriveClass, deriveField,
      deriveScalar, deriveContainer, getOrigin, isBareContainer]
  · simp [personDepth3, personDoc3, serialize_to_dict, encodeFields, encodeValue,
      encodeList]
  · simp [personEnv, personDepth3, personDoc3, load_dict, lookupEnv,
      registerDataclass, extractEntry, deriveClass, deriveField, deriveScalar,
      deriveContainer, getOrigin, isBareContainer, decodeClassFields, getItem,
      lookupField, isStrKey, decodeFieldD, decodeScalarD, decodeContainerD,
      decodeIterable, decodeElems, isNoneTy, isNoneVal]

/-- C7 counterexample: a field declared as an ordered-sequence container
(`List[...]`) fed a mapping-shaped tree value does NOT raise a shape-mismatch
error in either variant: Python iteration over a mapping yields its keys, so
both decoders silently accept the mapping and build a sequence of its keys. -/
theorem claim_C7_counterexample :
    load_dict [("R", [("xs", .clist .strT)])] "R"
        (.dict [(.str "xs", .dict [(.str "a", .int 1)])]) =
      .ok (.inst "R" [("xs", .list [.str "a"])]) ∧
    dict_to_dataclass [("R", [("xs", .clist .intT, Option.none)])] 10 "R"
        (.dict [(.str "xs", .dict [(.str "1", .int 7)])]) =
      .ok (.inst "R" [("xs", .list [.int 1])]) := by
  constructor
  · simp [load_dict, lookupEnv, registerDataclass, extractEntry, deriveClass,
      deriveField, deriveScalar, deriveContainer, getOrigin, isBareContainer,
      decodeClassFields, getItem, lookupField, isStrKey, decodeFieldD,
      decodeScalarD, decodeContainerD, decodeIterable, decodeElems, decodeKeys,
      isNoneTy, isNoneVal]
  · rfl

theorem decodeKeys_eq_decodeElems (env : Env) (et : Ty) :
    ∀ entries : List (Val × Val),
      decodeKeys env et entries = decodeElems env et (entries.map Prod.fst) := by
  intro entries
  induction entries with
  | nil => simp [decodeKeys, decodeElems]
  | cons e rest ih =>
    obtain ⟨k, w⟩ := e
    simp only [decodeKeys, decodeElems, List.map_cons]
    rw [ih]

/-- C7 amended: feeding a mapping-shaped tree value to a sequence field is
never an error per se: both variants iterate the mapping, which yields its
keys, so decoding the mapping is exactly decoding the sequence of its keys. -/
theorem claim_C7_mapping_into_sequence_amended :
    (∀ (env : Env) (et : Ty) (entries : List (Val × Val)),
      decodeContainerD env (.clist et) (.dict entries) =
        decodeContainerD env (.clist et) (.list (entries.map Prod.fst))) ∧
    (∀ (env : Env) (et : Ty) (entries : List (Val × Val)),
      decodeContainerD env (.ctuple et) (.dict entries) =
        decodeContainerD env (.ctuple et) (.list (entries.map Prod.fst))) ∧
    (∀ (env : DEnv) (fuel : Nat) (ti : TypeInfo) (entries : List (Val × Val)),
      constructGenericCollection env fuel ti (.dict entries) =
        constructGenericCollection env fuel ti (.list (entries.map Prod.fst))) := by
  refine ⟨?_, ?_, ?_⟩
  · intro env et entries
    simp only [decodeContainerD, decodeIterable, decodeKeys_eq_decodeElems]
  · intro env et entries
    simp only [decodeContainerD, decodeIterable, decodeKeys_eq_decodeElems]
  · intro env fuel ti entries
    cases fuel with
    | zero => rfl
    | succ f => simp only [constructGenericCollection, iterElems]

/-- Keep only the entries of a tree-mapping whose key is the text of one of
the given field names. -/
def restrictEntries (entries : List (Val × Val)) (names : List String) :
    List (Val × Val) :=
  entries.filter (fun p => names.any (fun n => isStrKey p.1 n))

/-- The declared field names of a registered record type (simple variant). -/
def fieldNames (env : Env) (name : String) : List String :=
  match lookupEnv env name with
  | some fs => fs.map Prod.fst
  | Option.none => []

/-- The declared field names of a record type of the deep variant. -/
def dfieldNames (env : DEnv) (name : String) : List String :=
  match lookupDEnv env name with
  | some dfs => dfs.map Prod.fst
  | Option.none => []

theorem lookupField_restrictEntries (names : List String) (fname : String)
    (hmem : fname ∈ names) :
    ∀ entries : List (Val × Val),
      lookupField (restrictEntries entries names) fname = lookupField entries fname := by
  intro entries
  induction entries with
  | nil => rfl
  | cons e rest ih =>
    obtain ⟨k, v⟩ := e
    by_cases hk : isStrKey k fname
    · have hany : names.any (fun n => isStrKey k n) = true :=
        List.any_eq_true.mpr ⟨fname, hmem, hk⟩
      simp only [restrictEntries, List.filter_cons] at ih ⊢
      simp only [hany, if_true, lookupField, hk, if_pos]
    · by_cases hany : names.any (fun n => isStrKey k n) = true
      · simp only [restrictEntries, List.filter_cons] at ih ⊢
        simp only [hany, if_true, lookupField, hk, if_false, ite_false]
        exact ih
      · simp only [restrictEntries, List.filter_cons] at ih ⊢
        simp only [hany, if_false, lookupField, hk, ite_false]
        exact ih

/-- The step of the field loop of `decode_dataclass`, with the lookup match
stated non-dependently (the definition names its scrutinee proof for the
termination argument). -/
theorem decodeClassFields_cons (env : Env) (fname : String) (ft : Ty)
    (rest : Fields) (v : Val) :
    decodeClassFields env ((fname, ft) :: rest) v =
      match getItem v fname with
      | .error e => .error e
      | .ok rawv =>
        match decodeFieldD env ft rawv with
        | .error e => .error e
        | .ok w =>
          match decodeClassFields env rest v with
          | .error e => .error e
          | .ok ws => .ok ((fname, w) :: ws) := by
  simp only [decodeClassFields]
  split
  · next e heq => rw [heq]
  · next rawv heq => rw [heq]

theorem decodeClassFields_restrict (env : Env) (names : List String)
    (entries : List (Val × Val)) :
    ∀ fs : Fields, (∀ p ∈ fs, p.1 ∈ names) →
      decodeClassFields env fs (.dict (restrictEntries entries names)) =
        decodeClassFields env fs (.dict entries) := by
  intro fs
  induction fs with
  | nil => intro _; simp [decodeClassFields]
  | cons f rest ih =>
    intro h
    obtain ⟨fname, ft⟩ := f
    have hn : fname ∈ names := h (fname, ft) (List.mem_cons_self _ _)
    have hrest : ∀ p ∈ rest, p.1 ∈ names := fun p hp => h p (List.mem_cons_of_mem _ hp)
    have hlook := lookupField_restrictEntries names fname hn entries
    rw [decodeClassFields_cons, decodeClassFields_cons]
    simp only [getItem, hlook, ih hrest]

theorem constructFieldsD_restrict (env : DEnv) (names : List String)
    (entries : List (Val × Val)) :
    ∀ (fuel : Nat) (dfs : List DField), (∀ p ∈ dfs, p.1 ∈ names) →
      constructFieldsD env fuel dfs (.dict (restrictEntries entries names)) =
        constructFieldsD env fuel dfs (.dict entries) := by
  intro fuel
  induction fuel with
  | zero => intro dfs _; rfl
  | succ f ih =>
    intro dfs h
    cases dfs with
    | nil => rfl
    | cons fld rest =>
      obtain ⟨fname, fty, dflt⟩ := fld
      have hn : fname ∈ names := h (fname, fty, dflt) (List.mem_cons_self _ _)
      have hrest : ∀ p ∈ rest, p.1 ∈ names := fun p hp => h p (List.mem_cons_of_mem _ hp)
      have hlook := lookupField_restrictEntries names fname hn entries
      simp only [constructFieldsD, getRaw, hlook, ih rest hrest]

/-- C10: decoding ignores keys of the tree-mapping beyond the record's
declared field names: in both variants the result equals decoding the same
mapping restricted to the declared field names, so extra keys never change the
outcome and never cause an error. -/
theorem claim_C10_extra_keys_ignored :
    (∀ (env : Env) (name : String) (entries : List (Val × Val)),
      load_dict env name (.dict entries) =
        load_dict env name (.dict (restrictEntries entries (fieldNames env name)))) ∧
    (∀ (env : DEnv) (fuel : Nat) (name : String) (entries : List (Val × Val)),
      dict_to_dataclass env fuel name (.dict entries) =
        dict_to_dataclass env fuel name
          (.dict (restrictEntries entries (dfieldNames env name)))) := by
  constructor
  · intro env name entries
    unfold load_dict
    cases hl : lookupEnv env name with
    | none => rfl
    | some fs =>
      have hnames : fieldNames env name = fs.map Prod.fst := by
        simp [fieldNames, hl]
      have hdc := decodeClassFields_restrict env (fs.map Prod.fst) entries fs
        (fun p hp => List.mem_map_of_mem Prod.fst hp)
      cases hr : registerDataclass env name with
      | error e => rfl
      | ok _ => simp [hnames, hdc]
  · intro env fuel name entries
    unfold dict_to_dataclass
    cases hl : lookupDEnv env name with
    | none => rfl
    | some dfs =>
      have hnames : dfieldNames env name = dfs.map Prod.fst := by
        simp [dfieldNames, hl]
      cases fuel with
      | zero => rfl
      | succ f =>
        have hcf := constructFieldsD_restrict env (dfs.map Prod.fst) entries f dfs
          (fun p hp => List.mem_map_of_mem Prod.fst hp)
        simp [constructDataclass, hl, hnames, hcf]

/-- C2 counterexample: the deep-reflection decoder substitutes a declared
default for a missing key: decoding an empty tree-mapping for a record whose
field declares a default succeeds with the default value instead of failing. -/
theorem claim_C2_counterexample :
    dict_to_dataclass [("P", [("x", .intT, some (.int 5))])] 10 "P" (.dict []) =
      .ok (.inst "P" [("x", .int 5)]) := by
  rfl

theorem decodeClassFields_missing (env : Env) (entries : List (Val × Val))
    (fname : String) (hmiss : lookupField entries fname = Option.none) :
    ∀ fs : Fields, (∃ t, (fname, t) ∈ fs) →
      ∃ e, decodeClassFields env fs (.dict entries) = .error e := by
  intro fs
  induction fs with
  | nil => rintro ⟨t, ht⟩; simp at ht
  | cons f rest ih =>
    rintro ⟨t, ht⟩
    obtain ⟨n0, t0⟩ := f
    cases hlf : lookupField entries n0 with
    | none =>
      exact ⟨.keyError, by rw [decodeClassFields_cons]; simp only [getItem, hlf]⟩
    | some rawv =>
      have hne : n0 ≠ fname := by
        intro heq; rw [heq, hmiss] at hlf; exact Option.noConfusion hlf
      have hmem : (fname, t) ∈ rest := by
        rcases List.mem_cons.mp ht with heq | hm
        · injection heq with h1 h2
          exact absurd h1.symm hne
        · exact hm
      rw [decodeClassFields_cons]
      simp only [getItem, hlf]
      cases hdf : decodeFieldD env t0 rawv with
      | error e => exact ⟨e, rfl⟩
      | ok w =>
        obtain ⟨e, he⟩ := ih ⟨t, hmem⟩
        rw [he]
        exact ⟨e, rfl⟩

theorem constructFieldsD_missing (env : DEnv) (entries : List (Val × Val))
    (fname : String) (hmiss : lookupField entries fname = Option.none) :
    ∀ (fuel : Nat) (dfs : List DField), (∃ t, (fname, t, Option.none) ∈ dfs) →
      ∃ e, constructFieldsD env fuel dfs (.dict entries) = .error e := by
  intro fuel
  induction fuel with
  | zero => intro dfs _; exact ⟨.recursionError, rfl⟩
  | succ f ih =>
    rintro dfs ⟨t, ht⟩
    cases dfs with
    | nil => simp at ht
    | cons fld rest =>
      obtain ⟨n0, t0, d0⟩ := fld
      cases hpt : parse_typehint t0 with
      | error e => exact ⟨e, by simp only [constructFieldsD, hpt]⟩
      | ok ti =>
        cases hlf : lookupField entries n0 with
        | none =>
          cases d0 with
          | none =>
            exact ⟨.typeError, by simp only [constructFieldsD, getRaw, hpt, hlf]⟩
          | some d =>
            have hmem : (fname, t, Option.none) ∈ rest := by
              rcases List.mem_cons.mp ht with heq | hm
              · injection heq with h1 h2
                injection h2 with h3 h4
                exact Option.noConfusion h4
              · exact hm
            simp only [constructFieldsD, getRaw, hpt, hlf]
            cases ho : constructObject env f ti d with
            | error e => exact ⟨e, rfl⟩
            | ok w =>
              obtain ⟨e, he⟩ := ih rest ⟨t, hmem⟩
              rw [he]
              exact ⟨e, rfl⟩
        | some rawv =>
          have hne : n0 ≠ fname := by
            intro heq; rw [heq, hmiss] at hlf; exact Option.noConfusion hlf
          have hmem : (fname, t, Option.none) ∈ rest := by
            rcases List.mem_cons.mp ht with heq | hm
            · injection heq with h1 h2
              exact absurd h1.symm hne
            · exact hm
          simp only [constructFieldsD, getRaw, hpt, hlf]
          cases ho : constructObject env f ti rawv with
          | error e => exact ⟨e, rfl⟩
          | ok w =>
            obtain ⟨e, he⟩ := ih rest ⟨t, hmem⟩
            rw [he]
            exact ⟨e, rfl⟩

/-- C2 amended: the simple decoder fails whenever any declared field's key is
absent from the tree-mapping (optional fields included: the optional wrapper
maps only an explicit null, not a missing key) and never substitutes a
default; the deep-reflection decoder fails on a missing key only for fields
declaring no default, and decodes the declared default where one exists. -/
theorem claim_C2_missing_key_amended :
    (∀ (env : Env) (name : String) (fs : Fields) (entries : List (Val × Val))
        (fname : String) (t : Ty),
      lookupEnv env name = some fs → (fname, t) ∈ fs →
      lookupField entries fname = Option.none →
      ∃ e, load_dict env name (.dict entries) = .error e) ∧
    (∀ (env : DEnv) (fuel : Nat) (name : String) (dfs : List DField)
        (entries : List (Val × Val)) (fname : String) (t : Ty),
      lookupDEnv env name = some dfs → (fname, t, Option.none) ∈ dfs →
      lookupField entries fname = Option.none →
      ∃ e, dict_to_dataclass env fuel name (.dict entries) = .error e) := by
  constructor
  · intro env name fs entries fname t hl hmem hmiss
    simp only [load_dict, hl]
    cases hr : registerDataclass env name with
    | error e => exact ⟨e, rfl⟩
    | ok u =>
      obtain ⟨e, he⟩ := decodeClassFields_missing env entries fname hmiss fs ⟨t, hmem⟩
      rw [he]
      exact ⟨e, rfl⟩
  · intro env fuel name dfs entries fname t hl hmem hmiss
    simp only [dict_to_dataclass, hl]
    cases fuel with
    | zero => exact ⟨.recursionError, rfl⟩
    | succ f =>
      simp only [constructDataclass, hl]
      obtain ⟨e, he⟩ := constructFieldsD_missing env entries fname hmiss f dfs ⟨t, hmem⟩
      rw [he]
      exact ⟨e, rfl⟩

/-- A run of the C2 amended theorem at a concrete record with one
defaultless field and an empty tree-mapping: both variants fail. -/
theorem claim_C2_missing_key_amended_witness :
    (∃ e, load_dict [("P", [("x", .intT)])] "P" (.dict []) = .error e) ∧
    (∃ e, dict_to_dataclass [("P", [("x", .intT, Option.none)])] 5 "P" (.dict []) =
      .error e) :=
  ⟨claim_C2_missing_key_amended.1 [("P", [("x", .intT)])] "P" [("x", .intT)] []
      "x" .intT rfl (by simp) rfl,
   claim_C2_missing_key_amended.2 [("P", [("x", .intT, Option.none)])] 5 "P"
      [("x", .intT, Option.none)] [] "x" .intT rfl (by simp) rfl⟩

theorem lookupEnv_of_extractEntry :
    ∀ (env : Env) (name : String) (fs : Fields) (rem : Env),
      extractEntry env name = some (fs, rem) → lookupEnv env name = some fs := by
  intro env
  induction env with
  | nil => intro name fs rem h; simp [extractEntry] at h
  | cons e rest ih =>
    intro name fs rem h
    obtain ⟨n, nfs⟩ := e
    simp only [extractEntry, lookupEnv] at h ⊢
    by_cases hn : n = name
    · simp only [hn, if_true, if_pos] at h ⊢
      simp only [Option.some.injEq, Prod.mk.injEq] at h
      rw [h.1]
    · simp only [hn, if_false, ite_false] at h ⊢
      cases hrec : extractEntry rest name with
      | none => rw [hrec] at h; exact Option.noConfusion h
      | some p =>
        obtain ⟨fs2, rem2⟩ := p
        rw [hrec] at h
        simp only [Option.some.injEq, Prod.mk.injEq] at h
        rw [ih name fs2 rem2 hrec, h.1]

/-- A field type whose derivation fails with a schema error for every state of
the `in_construction` walk makes the whole class derivation fail. -/
theorem deriveClass_err_of_badField :
    ∀ (fs : Fields) (rem : Env) (fname : String) (t : Ty), (fname, t) ∈ fs →
      (∀ rem2 : Env, deriveField rem2 t = .error .serializerTypeError) →
      ∃ e, deriveClass rem fs = .error e := by
  intro fs
  induction fs with
  | nil => intro rem fname t hmem; simp at hmem
  | cons f rest ih =>
    intro rem fname t hmem hbad
    obtain ⟨n0, t0⟩ := f
    rcases List.mem_cons.mp hmem with heq | hm
    · injection heq with h1 h2
      subst h2
      exact ⟨.serializerTypeError, by simp [deriveClass, hbad rem]⟩
    · cases hdf : deriveField rem t0 with
      | error e => exact ⟨e, by simp [deriveClass, hdf]⟩
      | ok s =>
        obtain ⟨r1, hr1⟩ := s
        obtain ⟨e, he⟩ := ih r1 fname t hm hbad
        exact ⟨e, by simp [deriveClass, hdf, he]⟩

/-- A bad field fails `register_dataclass`, and `load_dict` then fails with
the same error on every input tree value, before touching any data. -/
theorem register_and_load_err_of_badField (env : Env) (name : String)
    (fs : Fields) (rem : Env) (fname : String) (t : Ty)
    (hex : extractEntry env name = some (fs, rem))
    (hmem : (fname, t) ∈ fs)
    (hbad : ∀ rem2 : Env, deriveField rem2 t = .error .serializerTypeError) :
    ∃ e, registerDataclass env name = .error e ∧
      ∀ raw, load_dict env name raw = .error e := by
  obtain ⟨e, he⟩ := deriveClass_err_of_badField fs rem fname t hmem hbad
  have hlook : lookupEnv env name = some fs :=
    lookupEnv_of_extractEntry env name fs rem hex
  refine ⟨e, ?_, ?_⟩
  · simp [registerDataclass, hex, he]
  · intro raw
    simp [load_dict, hlook, registerDataclass, hex, he]

theorem deriveField_badUnion (rem : Env) (ts : List Ty)
    (hbad : 3 ≤ ts.length ∨ (ts.length = 2 ∧ ∀ t ∈ ts, isNoneTy t = false)) :
    deriveField rem (.union ts) = .error .serializerTypeError := by
  match ts, hbad with
  | [], hbad => simp at hbad
  | [t1], hbad => simp at hbad
  | [t1, t2], hbad =>
    have h2 : isNoneTy t2 = false := by
      rcases hbad with h3 | ⟨_, hall⟩
      · simp at h3
      · exact hall t2 (by simp)
    simp [deriveField, getOrigin, h2]
  | t1 :: t2 :: t3 :: rest, _ =>
    simp [deriveField, getOrigin]

theorem deriveField_bare (rem : Env) (t : Ty) (hbare : isBareContainer t = true) :
    deriveField rem t = .error .serializerTypeError := by
  cases t <;> simp_all [deriveField, getOrigin, isBareContainer]

/-- C4: a field whose declared type is a union of three or more alternatives,
or of exactly two alternatives neither of which is `NoneType`, makes
registration fail with a schema error before any data is processed, and
decoding with that record type fails with that same registration error on
every input tree value — never with a decode-time error. -/
theorem claim_C4_union_rejection (env : Env) (name : String) (fs : Fields)
    (rem : Env) (fname : String) (ts : List Ty)
    (hex : extractEntry env name = some (fs, rem))
    (hmem : (fname, .union ts) ∈ fs)
    (hbad : 3 ≤ ts.length ∨ (ts.length = 2 ∧ ∀ t ∈ ts, isNoneTy t = false)) :
    ∃ e, registerDataclass env name = .error e ∧
      ∀ raw, load_dict env name raw = .error e :=
  register_and_load_err_of_badField env name fs rem fname (.union ts) hex hmem
    (fun rem2 => deriveField_badUnion rem2 ts hbad)

/-- A run of the C4 theorem on a record with a `Union[int, str]` field. -/
theorem claim_C4_union_rejection_witness :
    ∃ e, registerDataclass [("U", [("u", .union [.intT, .strT])])] "U" = .error e ∧
      ∀ raw, load_dict [("U", [("u", .union [.intT, .strT])])] "U" raw = .error e :=
  claim_C4_union_rejection [("U", [("u", .union [.intT, .strT])])] "U"
    [("u", .union [.intT, .strT])] [] "u" [.intT, .strT] rfl (by simp)
    (Or.inr ⟨rfl, by simp [isNoneTy]⟩)

/-- C8 counterexample: the deep-reflection variant does NOT reject a field
declared as a bare container with no element types: it has no registration
phase, and at decode time it accepts the field, passing the raw value through
the container cast unchanged — elements of any type included. -/
theorem claim_C8_counterexample :
    dict_to_dataclass [("B", [("xs", .bareList, Option.none)])] 10 "B"
        (.dict [(.str "xs", .list [.int 1, .str "a"])]) =
      .ok (.inst "B" [("xs", .list [.int 1, .str "a"])]) := by
  rfl

/-- C8 amended: in the simple variant a field declared as a bare container
type makes registration fail with a schema error and decoding fail with that
same error on every input; the deep-reflection variant instead accepts such a
field at decode time. -/
theorem claim_C8_bare_container_amended (env : Env) (name : String)
    (fs : Fields) (rem : Env) (fname : String) (c : Ty)
    (hex : extractEntry env name = some (fs, rem))
    (hmem : (fname, c) ∈ fs)
    (hbare : isBareContainer c = true) :
    ∃ e, registerDataclass env name = .error e ∧
      ∀ raw, load_dict env name raw = .error e :=
  register_and_load_err_of_badField env name fs rem fname c hex hmem
    (fun rem2 => deriveField_bare rem2 c hbare)

/-- A run of the C8 amended theorem on a record with a bare `list` field. -/
theorem claim_C8_bare_container_amended_witness :
    ∃ e, registerDataclass [("B", [("xs", .bareList)])] "B" = .error e ∧
      ∀ raw, load_dict [("B", [("xs", .bareList)])] "B" raw = .error e :=
  claim_C8_bare_container_amended [("B", [("xs", .bareList)])] "B"
    [("xs", .bareList)] [] "xs" .bareList rfl (by simp) rfl

/-- Spec-side definition: the base runtime class of a type expression — the
container class a generic alias is built from, or the plain class itself. -/
def specBaseRuntime : Ty → Ty
  | .clist _ => .bareList
  | .ctuple _ => .bareTuple
  | .cset _ => .bareSet
  | .cfset _ => .bareFrozenset
  | .cdict _ _ => .bareDict
  | t => t

/-- Spec-side definition of `effective_type` as the spec words it: the base
runtime type, stripped of the optional wrapper. -/
def specEffectiveType : Ty → Ty
  | .union [t, .noneT] => specBaseRuntime t
  | t => specBaseRuntime t

/-- C9 counterexample: for the accepted optional container expression
`Optional[List[int]]` the resolver keeps the UNPARSED inner alias as the real
type — which is not the base runtime type stripped of the optional wrapper —
and records zero type arguments although the inner type is a single-element
container. -/
theorem claim_C9_counterexample :
    parse_typehint (.union [.clist .intT, .noneT]) =
      .ok (.mk (.clist .intT) (.union [.clist .intT, .noneT]) [] true) ∧
    specEffectiveType (.union [.clist .intT, .noneT]) = .bareList ∧
    Ty.clist .intT ≠ Ty.bareList :=
  ⟨rfl, rfl, fun h => Ty.noConfusion h⟩

/-- C9 amended: for every type expression the resolver accepts, a mapping
alias yields exactly two type arguments with the base mapping class as real
type; a single-element container alias exactly one, with its base container
class as real type; a non-generic expression zero, with the expression itself
(equal to the spec's effective type) as real type; but an optional expression
keeps the unparsed inner expression as its real type with zero type
arguments, so for an optional container the real type is the inner alias, not
the stripped base runtime type. -/
theorem claim_C9_descriptor_invariants (t : Ty) (ti : TypeInfo)
    (hp : parse_typehint t = .ok ti) :
    (∀ k v, t = .cdict k v →
      ti.typeArgs.length = 2 ∧ ti.realType = .bareDict) ∧
    (∀ a, (t = .clist a ∨ t = .ctuple a ∨ t = .cset a ∨ t = .cfset a) →
      ti.typeArgs.length = 1 ∧ ti.realType = specBaseRuntime t) ∧
    (getOrigin t = Option.none →
      ti.typeArgs.length = 0 ∧ ti.realType = t ∧ ti.realType = specEffectiveType t) ∧
    (∀ inner, t = .union [inner, .noneT] →
      ti.realType = inner ∧ ti.typeArgs = [] ∧ ti.isOptional = true) := by
  cases t
  case clist a =>
    cases hpa : parse_typehint a with
    | error e => simp [parse_typehint, hpa] at hp
    | ok ti2 =>
      simp only [parse_typehint, hpa, Except.ok.injEq] at hp
      subst hp
      refine ⟨?_, ?_, ?_, ?_⟩
      · intro k v h; exact Ty.noConfusion h
      · intro b hb; exact ⟨rfl, rfl⟩
      · intro h; simp [getOrigin] at h
      · intro inner h; exact Ty.noConfusion h
  case ctuple a =>
    cases hpa : parse_typehint a with
    | error e => simp [parse_typehint, hpa] at hp
    | ok ti2 =>
      simp only [parse_typehint, hpa, Except.ok.injEq] at hp
      subst hp
      refine ⟨?_, ?_, ?_, ?_⟩
      · intro k v h; exact Ty.noConfusion h
      · intro b hb; exact ⟨rfl, rfl⟩
      · intro h; simp [getOrigin] at h
      · intro inner h; exact Ty.noConfusion h
  case cset a =>
    cases hpa : parse_typehint a with
    | error e => simp [parse_typehint, hpa] at hp
    | ok ti2 =>
      simp only [parse_typehint, hpa, Except.ok.injEq] at hp
      subst hp
      refine ⟨?_, ?_, ?_, ?_⟩
      · intro k v h; exact Ty.noConfusion h
      · intro b hb; exact ⟨rfl, rfl⟩
      · intro h; simp [getOrigin] at h
      · intro inner h; exact Ty.noConfusion h
  case cfset a =>
    cases hpa : parse_typehint a with
    | error e => simp [parse_typehint, hpa] at hp
    | ok ti2 =>
      simp only [parse_typehint, hpa, Except.ok.injEq] at hp
      subst hp
      refine ⟨?_, ?_, ?_, ?_⟩
      · intro k v h; exact Ty.noConfusion h
      · intro b hb; exact ⟨rfl, rfl⟩
      · intro h; simp [getOrigin] at h
      · intro inner h; exact Ty.noConfusion h
  case cdict k v =>
    cases hpk : parse_typehint k with
    | error e => simp [parse_typehint, hpk] at hp
    | ok tk =>
      cases hpv : parse_typehint v with
      | error e => simp [parse_typehint, hpk, hpv] at hp
      | ok tv =>
        simp only [parse_typehint, hpk, hpv, Except.ok.injEq] at hp
        subst hp
        refine ⟨?_, ?_, ?_, ?_⟩
        · intro k2 v2 h; exact ⟨rfl, rfl⟩
        · intro b hb; rcases hb with h | h | h | h <;> exact Ty.noConfusion h
        · intro h; simp [getOrigin] at h
        · intro inner h; exact Ty.noConfusion h
  case union ts =>
    simp only [parse_typehint] at hp
    split at hp
    next t1 =>
      simp only [Except.ok.injEq] at hp
      subst hp
      refine ⟨?_, ?_, ?_, ?_⟩
      · intro k v h; exact Ty.noConfusion h
      · intro b hb; rcases hb with h | h | h | h <;> exact Ty.noConfusion h
      · intro h; simp [getOrigin] at h
      · intro inner h
        injection h with h2
        injection h2 with h3 h4
        subst h3
        exact ⟨rfl, rfl, rfl⟩
    next => exact Except.noConfusion hp
  all_goals
    simp only [parse_typehint, Except.ok.injEq] at hp
  all_goals subst hp
  all_goals refine ⟨?_, ?_, ?_, ?_⟩
  all_goals
    first
      | (intro h; exact ⟨rfl, rfl, rfl⟩)
      | (intro inner h; exact Ty.noConfusion h)
      | (intro a h; rcases h with h | h | h | h <;> exact Ty.noConfusion h)
      | (intro k v h; exact Ty.noConfusion h)

/-- A run of the C9 amended theorem at the mapping expression
`Dict[str, int]`: two type arguments, real type the bare mapping class. -/
theorem claim_C9_descriptor_invariants_witness :
    (TypeInfo.mk .bareDict (.cdict .strT .intT)
        [.mk .strT .strT [] false, .mk .intT .intT [] false] false).typeArgs.length = 2 ∧
    (TypeInfo.mk .bareDict (.cdict .strT .intT)
        [.mk .strT .strT [] false, .mk .intT .intT [] false] false).realType = .bareDict :=
  (claim_C9_descriptor_invariants (.cdict .strT .intT) _ rfl).1 .strT .intT rfl

/-! ### Round-trip: instance well-typedness

A "validly-constructed instance" holds, for every declared field, a value of
the declared runtime class (Python constructors enforce the component ranges
of the temporal classes and enum membership).  The exact-round-trip claim
additionally needs the temporal values millisecond-aligned and times naive,
since the codecs truncate to milliseconds and reject aware times. -/

/-- The `datetime.datetime` constructor's component ranges, as a test. -/
def Datetime.validB (d : Datetime) : Bool :=
  (1 ≤ d.year && d.year ≤ 9999 && 1 ≤ d.month && d.month ≤ 12 &&
    1 ≤ d.day && d.day ≤ 31) &&
  (d.hour ≤ 23 && d.minute ≤ 59 && d.second ≤ 59 && d.microsecond ≤ 999999) &&
  (match d.tz with | Option.none => true | some off => off.natAbs ≤ 1439)

def Time.validB (t : Time) : Bool :=
  (t.hour ≤ 23 && t.minute ≤ 59 && t.second ≤ 59 && t.microsecond ≤ 999999) &&
  (match t.tz with | Option.none => true | some off => off.natAbs ≤ 1439)

def Date.validB (d : Date) : Bool :=
  1 ≤ d.year && d.year ≤ 9999 && 1 ≤ d.month && d.month ≤ 12 &&
    1 ≤ d.day && d.day ≤ 31

theorem datetime_valid_of_validB (d : Datetime) (h : d.validB = true) : d.Valid := by
  unfold Datetime.validB at h
  unfold Datetime.Valid
  cases htz : d.tz with
  | none =>
    rw [htz] at h
    simp only [Bool.and_eq_true, decide_eq_true_eq] at h
    refine ⟨?_, ?_, ?_⟩
    · unfold ValidDate; omega
    · unfold ValidClock; omega
    · trivial
  | some off =>
    rw [htz] at h
    simp only [Bool.and_eq_true, decide_eq_true_eq] at h
    refine ⟨?_, ?_, ?_⟩
    · unfold ValidDate; omega
    · unfold ValidClock; omega
    · exact h.2

theorem time_valid_of_validB (t : Time) (h : t.validB = true) : t.Valid := by
  unfold Time.validB at h
  unfold Time.Valid
  cases htz : t.tz with
  | none =>
    rw [htz] at h
    simp only [Bool.and_eq_true, decide_eq_true_eq] at h
    refine ⟨?_, ?_⟩
    · unfold ValidClock; omega
    · trivial
  | some off =>
    rw [htz] at h
    simp only [Bool.and_eq_true, decide_eq_true_eq] at h
    refine ⟨?_, ?_⟩
    · unfold ValidClock; omega
    · exact h.2

theorem date_valid_of_validB (d : Date) (h : d.validB = true) : d.Valid := by
  unfold Date.validB at h
  simp only [Bool.and_eq_true, decide_eq_true_eq] at h
  unfold Date.Valid ValidDate
  omega

/-- The scalar types `_make_scalar_decoder` covers: registered codecs,
enumerations, nested dataclasses, and the tree-native scalar classes (which
get the identity decoder). -/
def scalarOK : Ty → Bool
  | .intT | .strT | .boolT | .noneT => true
  | .uuidT | .decimalT | .datetimeT | .timeT | .dateT => true
  | .enumT _ => true
  | .dataclassT _ => true
  | _ => false

/-- Container hints whose element (or key/value) types are scalar — the only
containers the simple derivation accepts. -/
def containerOK : Ty → Bool
  | .clist e | .ctuple e | .cset e | .cfset e => scalarOK e
  | .cdict k v => scalarOK k && scalarOK v
  | _ => false

/-- Field type expressions the registered codecs cover: scalars, containers
of scalars, and `Optional` of either. -/
def fieldOK : Ty → Bool
  | .union ts =>
    match ts with
    | [t1, t2] => isNoneTy t2 && (scalarOK t1 || containerOK t1)
    | _ => false
  | t => scalarOK t || containerOK t

def nodupNames : List String → Bool
  | [] => true
  | n :: rest => !(rest.any (fun m => m = n)) && nodupNames rest

def classOK (fs : Fields) : Bool :=
  fs.all (fun p => fieldOK p.2) && nodupNames (fs.map Prod.fst)

/-- Every record type of the environment declares codec-covered field types
and distinct field names (a Python dataclass cannot repeat a field name). -/
def envOK (env : Env) : Bool :=
  env.all (fun p => classOK p.2)

mutual

/-- A validly-constructed, exactly-round-trippable value of a declared type:
the value belongs to the declared runtime class, enum values are members,
temporal components are in range, datetimes and times are millisecond-aligned
and times naive, and nested instances are registered and well-typed. -/
def wtB (env : Env) (t : Ty) (v : Val) : Bool :=
  match t with
  | .intT => match v with | .int _ => true | _ => false
  | .strT => match v with | .str _ => true | _ => false
  | .boolT => match v with | .bool _ => true | _ => false
  | .noneT => isNoneVal v
  | .uuidT => match v with | .uuid _ => true | _ => false
  | .decimalT => match v with | .decimal _ => true | _ => false
  | .datetimeT =>
    match v with
    | .datetime d => d.validB && decide (d.microsecond % 1000 = 0)
    | _ => false
  | .timeT =>
    match v with
    | .time tv =>
      tv.validB && decide (tv.tz = Option.none) && decide (tv.microsecond % 1000 = 0)
    | _ => false
  | .dateT => match v with | .date d => d.validB | _ => false
  | .enumT cases =>
    match v with
    | .enumv cases2 m => decide (cases2 = cases) && decide (m ∈ cases)
    | _ => false
  | .clist et => match v with | .list l => wtList env et l | _ => false
  | .ctuple et => match v with | .tuple l => wtList env et l | _ => false
  | .cset et => match v with | .set l => wtList env et l | _ => false
  | .cfset et => match v with | .fset l => wtList env et l | _ => false
  | .cdict kt vt =>
    match v with | .dict entries => wtEntries env kt vt entries | _ => false
  | .union ts =>
    match ts with
    | [t1, t2] => isNoneTy t2 && (isNoneVal v || wtB env t1 v)
    | _ => false
  | .dataclassT nm =>
    match v with
    | .inst nm2 fields =>
      decide (nm2 = nm) &&
        (match lookupEnv env nm with
         | some fs => wtFields env fs fields
         | Option.none => false)
    | _ => false
  | _ => false
termination_by (sizeOf v, 1, sizeOf t)
decreasing_by
  all_goals simp_wf
  all_goals simp only [Prod.lex_def]
  all_goals try simp
  all_goals omega

def wtList (env : Env) (t : Ty) (l : List Val) : Bool :=
  match l with
  | [] => true
  | x :: rest => wtB env t x && wtList env t rest
termination_by (sizeOf l, 0, 0)
decreasing_by
  all_goals simp_wf
  all_goals simp only [Prod.lex_def]
  all_goals try simp
  all_goals omega

def wtEntries (env : Env) (kt vt : Ty) (entries : List (Val × Val)) : Bool :=
  match entries with
  | [] => true
  | (k, w) :: rest => wtB env kt k && wtB env vt w && wtEntries env kt vt rest
termination_by (sizeOf entries, 0, 0)
decreasing_by
  all_goals simp_wf
  all_goals simp only [Prod.lex_def]
  all_goals try simp
  all_goals omega

/-- The instance's field list matches the declared fields: same names in
declaration order, with well-typed values. -/
def wtFields (env : Env) (fs : Fields) (fields : List (String × Val)) : Bool :=
  match fs, fields with
  | [], [] => true
  | (fn, ft) :: fsRest, (gn, gv) :: fRest =>
    decide (gn = fn) && wtB env ft gv && wtFields env fsRest fRest
  | _, _ => false
termination_by (sizeOf fields, 0, 0)
decreasing_by
  all_goals simp_wf
  all_goals simp only [Prod.lex_def]
  all_goals try simp
  all_goals omega

end

theorem mem_of_lookupEnv :
    ∀ (env : Env) (name : String) (fs : Fields),
      lookupEnv env name = some fs → (name, fs) ∈ env := by
  intro env
  induction env with
  | nil => intro name fs h; simp [lookupEnv] at h
  | cons e rest ih =>
    intro name fs h
    obtain ⟨n, nfs⟩ := e
    simp only [lookupEnv] at h
    by_cases hn : n = name
    · rw [if_pos hn] at h
      injection h with h2
      subst hn
      subst h2
      exact List.mem_cons_self _ _
    · rw [if_neg hn] at h
      exact List.mem_cons_of_mem _ (ih name fs h)

theorem extractEntry_sublist :
    ∀ (env : Env) (name : String) (fs : Fields) (rem : Env),
      extractEntry env name = some (fs, rem) →
      rem.Sublist env ∧ (name, fs) ∈ env := by
  intro env
  induction env with
  | nil => intro name fs rem h; simp [extractEntry] at h
  | cons e rest ih =>
    intro name fs rem h
    obtain ⟨n, nfs⟩ := e
    simp only [extractEntry] at h
    by_cases hn : n = name
    · rw [if_pos hn] at h
      injection h with h2
      injection h2 with h3 h4
      subst hn
      subst h3
      subst h4
      exact ⟨List.sublist_cons_self _ _, List.mem_cons_self _ _⟩
    · rw [if_neg hn] at h
      cases hrec : extractEntry rest name with
      | none => rw [hrec] at h; exact Option.noConfusion h
      | some p =>
        obtain ⟨fs2, rem2⟩ := p
        rw [hrec] at h
        injection h with h2
        injection h2 with h3 h4
        subst h3
        subst h4
        obtain ⟨hsub, hmem⟩ := ih name fs2 rem2 hrec
        exact ⟨List.Sublist.cons₂ _ hsub, List.mem_cons_of_mem _ hmem⟩

/-- Every environment entry still to be visited declares a codec-covered,
duplicate-free record type. -/
def RemOK (rem : Env) : Prop := ∀ p ∈ rem, classOK p.2 = true

theorem remOK_of_envOK (env : Env) (h : envOK env = true) : RemOK env := by
  intro p hp
  exact List.all_eq_true.mp h p hp

theorem RemOK.sublist (rem1 rem2 : Env) (hs : rem1.Sublist rem2)
    (h : RemOK rem2) : RemOK rem1 :=
  fun p hp => h p (hs.subset hp)

theorem classOK_of_envOK (env : Env) (name : String) (fs : Fields)
    (henv : envOK env = true) (hl : lookupEnv env name = some fs) :
    classOK fs = true :=
  remOK_of_envOK env henv (name, fs) (mem_of_lookupEnv env name fs hl)

theorem scalarOK_facts (t : Ty) (h : scalarOK t = true) :
    getOrigin t = Option.none ∧ isBareContainer t = false ∧ containerOK t = false := by
  cases t <;> simp_all [scalarOK, getOrigin, isBareContainer, containerOK]

theorem containerOK_facts (t : Ty) (h : containerOK t = true) :
    scalarOK t = false ∧ isBareContainer t = false := by
  cases t <;> simp_all [scalarOK, containerOK, isBareContainer]

theorem nodupNames_cons (n : String) (rest : List String)
    (h : nodupNames (n :: rest) = true) :
    (∀ m ∈ rest, m ≠ n) ∧ nodupNames rest = true := by
  simp only [nodupNames, Bool.and_eq_true, Bool.not_eq_true', List.any_eq_false,
    decide_eq_false_iff_not] at h
  exact ⟨fun m hm => by simpa using h.1 m hm, h.2⟩

theorem decodeClassFields_skip (env : Env) (k0 w0 : Val) (es : List (Val × Val)) :
    ∀ fs : Fields, (∀ p ∈ fs, isStrKey k0 p.1 = false) →
      decodeClassFields env fs (.dict ((k0, w0) :: es)) =
        decodeClassFields env fs (.dict es) := by
  intro fs
  induction fs with
  | nil => intro _; simp [decodeClassFields]
  | cons f rest ih =>
    intro h
    obtain ⟨fn, ft⟩ := f
    have hk : isStrKey k0 fn = false := h (fn, ft) (List.mem_cons_self _ _)
    rw [decodeClassFields_cons, decodeClassFields_cons]
    simp only [getItem, lookupField, hk, Bool.false_eq_true, if_false, ite_false,
      ih (fun p hp => h p (List.mem_cons_of_mem _ hp))]

theorem containerOK_origin (t : Ty) (h : containerOK t = true) :
    ∃ o, getOrigin t = some o ∧ o ≠ Origin.unionO := by
  cases t
  case clist e => exact ⟨.listO, rfl, by decide⟩
  case ctuple e => exact ⟨.tupleO, rfl, by decide⟩
  case cset e => exact ⟨.setO, rfl, by decide⟩
  case cfset e => exact ⟨.frozensetO, rfl, by decide⟩
  case cdict k v => exact ⟨.dictO, rfl, by decide⟩
  all_goals simp_all [containerOK]

theorem extractEntry_of_lookupEnv :
    ∀ (env : Env) (name : String) (fs : Fields),
      lookupEnv env name = some fs →
      ∃ rem, extractEntry env name = some (fs, rem) := by
  intro env
  induction env with
  | nil => intro name fs h; simp [lookupEnv] at h
  | cons e rest ih =>
    intro name fs h
    obtain ⟨n, nfs⟩ := e
    simp only [lookupEnv, extractEntry] at h ⊢
    by_cases hn : n = name
    · rw [if_pos hn] at h ⊢
      injection h with h2
      exact ⟨rest, by rw [h2]⟩
    · rw [if_neg hn] at h ⊢
      obtain ⟨rem, hrec⟩ := ih name fs h
      exact ⟨(n, nfs) :: rem, by rw [hrec]⟩

/-- The step of `deriveScalar` on a dataclass hint absent from the remainder
(the cycle guard: the class is already being processed, or unknown). -/
theorem deriveScalar_dataclassT_none (rem : Env) (nm : String)
    (hex : extractEntry rem nm = Option.none) :
    deriveScalar rem (.dataclassT nm) = .ok ⟨rem, le_refl _⟩ := by
  simp only [deriveScalar]
  split
  next fs rem2 heq => rw [hex] at heq; exact Option.noConfusion heq
  next => rfl

theorem deriveScalar_dataclassT_ok (rem : Env) (nm : String) (fs : Fields)
    (rem2 : Env) (r : Env) (hr : r.length ≤ rem2.length)
    (hex : extractEntry rem nm = some (fs, rem2))
    (hcl : deriveClass rem2 fs = .ok ⟨r, hr⟩) :
    deriveScalar rem (.dataclassT nm) =
      .ok ⟨r, by have := extractEntry_length rem nm fs rem2 hex; omega⟩ := by
  simp only [deriveScalar]
  split
  next fs2 rem3 heq =>
    rw [hex] at heq
    injection heq with h2
    injection h2 with h3 h4
    subst h3
    subst h4
    rw [hcl]
  next heq => rw [hex] at heq; exact Option.noConfusion heq

theorem fieldOK_none_scalar (t : Ty) (horig : getOrigin t = Option.none)
    (ht : fieldOK t = true) : scalarOK t = true := by
  cases t <;> simp_all [fieldOK, getOrigin, scalarOK, containerOK]

theorem fieldOK_origin_container (t : Ty) (o : Origin) (ho : o ≠ Origin.unionO)
    (horig : getOrigin t = some o) (ht : fieldOK t = true) :
    containerOK t = true := by
  cases t <;> simp_all [fieldOK, getOrigin, scalarOK, containerOK]

theorem getOrigin_unionO (t : Ty) (h : getOrigin t = some Origin.unionO) :
    ∃ ts, t = .union ts := by
  cases t
  case union ts => exact ⟨ts, rfl⟩
  all_goals simp [getOrigin] at h

/-- Derivation succeeds on every codec-covered type over a well-formed
remainder: the walk only removes environment entries, and each removal
strictly shrinks the termination measure. -/
theorem derive_ok_of_OK :
    ∀ n : Nat, ∀ rem : Env, rem.length ≤ n → RemOK rem →
      (∀ t, scalarOK t = true →
        ∃ r : {r : Env // r.length ≤ rem.length},
          deriveScalar rem t = .ok r ∧ r.1.Sublist rem) ∧
      (∀ t, containerOK t = true →
        ∃ r : {r : Env // r.length ≤ rem.length},
          deriveContainer rem t = .ok r ∧ r.1.Sublist rem) ∧
      (∀ t, fieldOK t = true →
        ∃ r : {r : Env // r.length ≤ rem.length},
          deriveField rem t = .ok r ∧ r.1.Sublist rem) ∧
      (∀ fs, fs.all (fun p => fieldOK p.2) = true →
        ∃ r : {r : Env // r.length ≤ rem.length},
          deriveClass rem fs = .ok r ∧ r.1.Sublist rem) := by
  intro n
  induction n using Nat.strong_induction_on with
  | _ n IH =>
    intro rem hn hrem
    have SC : ∀ t, scalarOK t = true →
        ∃ r : {r : Env // r.length ≤ rem.length},
          deriveScalar rem t = .ok r ∧ r.1.Sublist rem := by
      intro t ht
      cases t
      case dataclassT nm =>
        cases hex : extractEntry rem nm with
        | none =>
          exact ⟨⟨rem, le_refl _⟩, deriveScalar_dataclassT_none rem nm hex,
            List.Sublist.refl _⟩
        | some p =>
          obtain ⟨fs, rem2⟩ := p
          have hlen := extractEntry_length rem nm fs rem2 hex
          obtain ⟨hsub2, hmem2⟩ := extractEntry_sublist rem nm fs rem2 hex
          have hrem2 : RemOK rem2 := RemOK.sublist rem2 rem hsub2 hrem
          have hcls : classOK fs = true := hrem (nm, fs) hmem2
          have hflds : fs.all (fun p => fieldOK p.2) = true := by
            unfold classOK at hcls
            simp only [Bool.and_eq_true] at hcls
            exact hcls.1
          have hlt : rem2.length < n := by omega
          obtain ⟨rsub, hok, hsubr⟩ :=
            (IH rem2.length hlt rem2 (le_refl _) hrem2).2.2.2 fs hflds
          obtain ⟨r, hr⟩ := rsub
          refine ⟨⟨r, by omega⟩, ?_, hsubr.trans hsub2⟩
          exact deriveScalar_dataclassT_ok rem nm fs rem2 r hr hex hok
      case intT => exact ⟨⟨rem, le_refl _⟩, by simp only [deriveScalar], List.Sublist.refl _⟩
      case strT => exact ⟨⟨rem, le_refl _⟩, by simp only [deriveScalar], List.Sublist.refl _⟩
      case boolT => exact ⟨⟨rem, le_refl _⟩, by simp only [deriveScalar], List.Sublist.refl _⟩
      case noneT => exact ⟨⟨rem, le_refl _⟩, by simp only [deriveScalar], List.Sublist.refl _⟩
      case uuidT => exact ⟨⟨rem, le_refl _⟩, by simp only [deriveScalar], List.Sublist.refl _⟩
      case decimalT =>
        exact ⟨⟨rem, le_refl _⟩, by simp only [deriveScalar], List.Sublist.refl _⟩
      case datetimeT =>
        exact ⟨⟨rem, le_refl _⟩, by simp only [deriveScalar], List.Sublist.refl _⟩
      case timeT => exact ⟨⟨rem, le_refl _⟩, by simp only [deriveScalar], List.Sublist.refl _⟩
      case dateT => exact ⟨⟨rem, le_refl _⟩, by simp only [deriveScalar], List.Sublist.refl _⟩
      case enumT cs =>
        exact ⟨⟨rem, le_refl _⟩, by simp only [deriveScalar], List.Sublist.refl _⟩
      all_goals simp only [scalarOK, Bool.false_eq_true] at ht
    have CO : ∀ t, containerOK t = true →
        ∃ r : {r : Env // r.length ≤ rem.length},
          deriveContainer rem t = .ok r ∧ r.1.Sublist rem := by
      intro t ht
      cases t
      case clist e =>
        obtain ⟨r, hok, hsub⟩ := SC e (by simpa [containerOK] using ht)
        exact ⟨r, by simp only [deriveContainer, hok], hsub⟩
      case ctuple e =>
        obtain ⟨r, hok, hsub⟩ := SC e (by simpa [containerOK] using ht)
        exact ⟨r, by simp only [deriveContainer, hok], hsub⟩
      case cset e =>
        obtain ⟨r, hok, hsub⟩ := SC e (by simpa [containerOK] using ht)
        exact ⟨r, by simp only [deriveContainer, hok], hsub⟩
      case cfset e =>
        obtain ⟨r, hok, hsub⟩ := SC e (by simpa [containerOK] using ht)
        exact ⟨r, by simp only [deriveContainer, hok], hsub⟩
      case cdict kt vt =>
        have hkv : scalarOK kt = true ∧ scalarOK vt = true := by
          simpa [containerOK, Bool.and_eq_true] using ht
        obtain ⟨⟨r1, hr1⟩, hok1, hsub1⟩ := SC kt hkv.1
        have hv2 : ∃ r : {r : Env // r.length ≤ r1.length},
            deriveScalar r1 vt = .ok r ∧ r.1.Sublist r1 := by
          by_cases hleq : r1.length = rem.length
          · have heq : r1 = rem := hsub1.eq_of_length hleq
            subst heq
            exact SC vt hkv.2
          · have hlt : r1.length < rem.length := lt_of_le_of_ne hr1 hleq
            exact (IH r1.length (by omega) r1 (le_refl _)
              (RemOK.sublist r1 rem hsub1 hrem)).1 vt hkv.2
        obtain ⟨⟨r2, hr2⟩, hok2, hsub2⟩ := hv2
        refine ⟨⟨r2, by omega⟩, ?_, hsub2.trans hsub1⟩
        simp only [deriveContainer, hok1, hok2]
      all_goals simp only [containerOK, Bool.false_eq_true] at ht
    have FI : ∀ t, fieldOK t = true →
        ∃ r : {r : Env // r.length ≤ rem.length},
          deriveField rem t = .ok r ∧ r.1.Sublist rem := by
      intro t ht
      cases t
      case union ts =>
        cases ts with
        | nil => simp [fieldOK] at ht
        | cons t1 ts2 =>
          cases ts2 with
          | nil => simp [fieldOK] at ht
          | cons t2 ts3 =>
            cases ts3 with
            | cons t3 ts4 => simp [fieldOK] at ht
            | nil =>
              have ht2 : isNoneTy t2 = true ∧
                  (scalarOK t1 || containerOK t1) = true := by
                simpa [fieldOK, Bool.and_eq_true] using ht
              have hor : scalarOK t1 = true ∨ containerOK t1 = true := by
                have h := ht2.2
                simp only [Bool.or_eq_true] at h
                exact h
              cases horig1 : getOrigin t1 with
              | none =>
                have hsc1 : scalarOK t1 = true := by
                  rcases hor with h | h
                  · exact h
                  · obtain ⟨o1, ho1, _⟩ := containerOK_origin t1 h
                    rw [horig1] at ho1; exact Option.noConfusion ho1
                obtain ⟨r, hok, hsub⟩ := SC t1 hsc1
                refine ⟨r, ?_, hsub⟩
                simp [deriveField, ht2.1, horig1, hok]
                simp [getOrigin]
              | some o1 =>
                have hco1 : containerOK t1 = true := by
                  rcases hor with h | h
                  · rw [(scalarOK_facts t1 h).1] at horig1
                    exact Option.noConfusion horig1
                  · exact h
                obtain ⟨r, hok, hsub⟩ := CO t1 hco1
                refine ⟨r, ?_, hsub⟩
                simp [deriveField, ht2.1, horig1, hok]
                simp [getOrigin]
      case clist e =>
        obtain ⟨r, hok, hsub⟩ := CO (.clist e)
          (by simpa [fieldOK, scalarOK, containerOK] using ht)
        exact ⟨r, by simp [deriveField, getOrigin, hok], hsub⟩
      case ctuple e =>
        obtain ⟨r, hok, hsub⟩ := CO (.ctuple e)
          (by simpa [fieldOK, scalarOK, containerOK] using ht)
        exact ⟨r, by simp [deriveField, getOrigin, hok], hsub⟩
      case cset e =>
        obtain ⟨r, hok, hsub⟩ := CO (.cset e)
          (by simpa [fieldOK, scalarOK, containerOK] using ht)
        exact ⟨r, by simp [deriveField, getOrigin, hok], hsub⟩
      case cfset e =>
        obtain ⟨r, hok, hsub⟩ := CO (.cfset e)
          (by simpa [fieldOK, scalarOK, containerOK] using ht)
        exact ⟨r, by simp [deriveField, getOrigin, hok], hsub⟩
      case cdict k v =>
        obtain ⟨r, hok, hsub⟩ := CO (.cdict k v)
          (by simpa [fieldOK, scalarOK, containerOK] using ht)
        exact ⟨r, by simp [deriveField, getOrigin, hok], hsub⟩
      case intT =>
        obtain ⟨r, hok, hsub⟩ := SC .intT rfl
        exact ⟨r, by simp [deriveField, getOrigin, isBareContainer, hok], hsub⟩
      case strT =>
        obtain ⟨r, hok, hsub⟩ := SC .strT rfl
        exact ⟨r, by simp [deriveField, getOrigin, isBareContainer, hok], hsub⟩
      case boolT =>
        obtain ⟨r, hok, hsub⟩ := SC .boolT rfl
        exact ⟨r, by simp [deriveField, getOrigin, isBareContainer, hok], hsub⟩
      case noneT =>
        obtain ⟨r, hok, hsub⟩ := SC .noneT rfl
        exact ⟨r, by simp [deriveField, getOrigin, isBareContainer, hok], hsub⟩
      case uuidT =>
        obtain ⟨r, hok, hsub⟩ := SC .uuidT rfl
        exact ⟨r, by simp [deriveField, getOrigin, isBareContainer, hok], hsub⟩
      case decimalT =>
        obtain ⟨r, hok, hsub⟩ := SC .decimalT rfl
        exact ⟨r, by simp [deriveField, getOrigin, isBareContainer, hok], hsub⟩
      case datetimeT =>
        obtain ⟨r, hok, hsub⟩ := SC .datetimeT rfl
        exact ⟨r, by simp [deriveField, getOrigin, isBareContainer, hok], hsub⟩
      case timeT =>
        obtain ⟨r, hok, hsub⟩ := SC .timeT rfl
        exact ⟨r, by simp [deriveField, getOrigin, isBareContainer, hok], hsub⟩
      case dateT =>
        obtain ⟨r, hok, hsub⟩ := SC .dateT rfl
        exact ⟨r, by simp [deriveField, getOrigin, isBareContainer, hok], hsub⟩
      case enumT cs =>
        obtain ⟨r, hok, hsub⟩ := SC (.enumT cs) rfl
        exact ⟨r, by simp [deriveField, getOrigin, isBareContainer, hok], hsub⟩
      case dataclassT nm =>
        obtain ⟨r, hok, hsub⟩ := SC (.dataclassT nm) rfl
        exact ⟨r, by simp [deriveField, getOrigin, isBareContainer, hok], hsub⟩
      all_goals simp only [fieldOK, scalarOK, containerOK, Bool.or_self,
        Bool.false_eq_true] at ht
    have CL : ∀ fs, fs.all (fun p => fieldOK p.2) = true →
        ∃ r : {r : Env // r.length ≤ rem.length},
          deriveClass rem fs = .ok r ∧ r.1.Sublist rem := by
      intro fs
      induction fs with
      | nil =>
        intro _
        exact ⟨⟨rem, le_refl _⟩, by simp only [deriveClass], List.Sublist.refl _⟩
      | cons f rest ihf =>
        intro hall
        obtain ⟨n0, t0⟩ := f
        simp only [List.all_cons, Bool.and_eq_true] at hall
        obtain ⟨r1sub, hok1, hsub1⟩ := FI t0 hall.1
        obtain ⟨r1, hr1⟩ := r1sub
        by_cases hleq : r1.length = rem.length
        · have heq : r1 = rem := hsub1.eq_of_length hleq
          subst heq
          obtain ⟨⟨r2, hr2⟩, hok2, hsub2⟩ := ihf hall.2
          refine ⟨⟨r2, hr2⟩, ?_, hsub2⟩
          simp only [deriveClass, hok1, hok2]
        · have hlt : r1.length < rem.length := lt_of_le_of_ne hr1 hleq
          have hremr1 : RemOK r1 := RemOK.sublist r1 rem hsub1 hrem
          obtain ⟨⟨r2, hr2⟩, hok2, hsub2⟩ :=
            (IH r1.length (by omega) r1 (le_refl _) hremr1).2.2.2 rest hall.2
          refine ⟨⟨r2, by omega⟩, ?_, hsub2.trans hsub1⟩
          simp only [deriveClass, hok1, hok2]
    exact ⟨SC, CO, FI, CL⟩

/-- On a well-formed environment, `register_dataclass` succeeds for every
registered record type. -/
theorem registerDataclass_ok_of_envOK (env : Env) (name : String) (fs : Fields)
    (henv : envOK env = true) (hl : lookupEnv env name = some fs) :
    registerDataclass env name = .ok () := by
  obtain ⟨rem, hex⟩ := extractEntry_of_lookupEnv env name fs hl
  obtain ⟨hsub, hmem⟩ := extractEntry_sublist env name fs rem hex
  have hremOK : RemOK rem := RemOK.sublist rem env hsub (remOK_of_envOK env henv)
  have hcls : classOK fs = true := remOK_of_envOK env henv (name, fs) hmem
  have hflds : fs.all (fun p => fieldOK p.2) = true := by
    unfold classOK at hcls
    simp only [Bool.and_eq_true] at hcls
    exact hcls.1
  obtain ⟨r, hok, _⟩ :=
    (derive_ok_of_OK rem.length rem (le_refl _) hremOK).2.2.2 fs hflds
  simp [registerDataclass, hex, hok]

theorem isNoneVal_eq (v : Val) (h : isNoneVal v = true) : v = .none := by
  cases v <;> simp_all [isNoneVal]

theorem wtB_intT (env : Env) (v : Val) (h : wtB env .intT v = true) :
    ∃ m, v = .int m := by
  cases v
  case int m => exact ⟨m, rfl⟩
  all_goals simp only [wtB, Bool.false_eq_true] at h

theorem wtB_strT (env : Env) (v : Val) (h : wtB env .strT v = true) :
    ∃ s, v = .str s := by
  cases v
  case str s => exact ⟨s, rfl⟩
  all_goals simp only [wtB, Bool.false_eq_true] at h

theorem wtB_boolT (env : Env) (v : Val) (h : wtB env .boolT v = true) :
    ∃ b, v = .bool b := by
  cases v
  case bool b => exact ⟨b, rfl⟩
  all_goals simp only [wtB, Bool.false_eq_true] at h

theorem wtB_noneT (env : Env) (v : Val) (h : wtB env .noneT v = true) :
    v = .none := by
  cases v
  case none => rfl
  all_goals simp only [wtB, isNoneVal, Bool.false_eq_true] at h

theorem wtB_uuidT (env : Env) (v : Val) (h : wtB env .uuidT v = true) :
    ∃ s, v = .uuid s := by
  cases v
  case uuid s => exact ⟨s, rfl⟩
  all_goals simp only [wtB, Bool.false_eq_true] at h

theorem wtB_decimalT (env : Env) (v : Val) (h : wtB env .decimalT v = true) :
    ∃ s, v = .decimal s := by
  cases v
  case decimal s => exact ⟨s, rfl⟩
  all_goals simp only [wtB, Bool.false_eq_true] at h

theorem wtB_datetimeT (env : Env) (v : Val) (h : wtB env .datetimeT v = true) :
    ∃ d, v = .datetime d ∧ d.validB = true ∧ d.microsecond % 1000 = 0 := by
  cases v
  case datetime d =>
    simp only [wtB, Bool.and_eq_true, decide_eq_true_eq] at h
    exact ⟨d, rfl, h.1, h.2⟩
  all_goals simp only [wtB, Bool.false_eq_true] at h

theorem wtB_timeT (env : Env) (v : Val) (h : wtB env .timeT v = true) :
    ∃ tv, v = .time tv ∧ tv.validB = true ∧ tv.tz = Option.none ∧
      tv.microsecond % 1000 = 0 := by
  cases v
  case time tv =>
    simp only [wtB, Bool.and_eq_true, decide_eq_true_eq] at h
    exact ⟨tv, rfl, h.1.1, h.1.2, h.2⟩
  all_goals simp only [wtB, Bool.false_eq_true] at h

theorem wtB_dateT (env : Env) (v : Val) (h : wtB env .dateT v = true) :
    ∃ d, v = .date d ∧ d.validB = true := by
  cases v
  case date d =>
    simp only [wtB] at h
    exact ⟨d, rfl, h⟩
  all_goals simp only [wtB, Bool.false_eq_true] at h

theorem wtB_enumT (env : Env) (cs : List Int) (v : Val)
    (h : wtB env (.enumT cs) v = true) :
    ∃ m, v = .enumv cs m ∧ m ∈ cs := by
  cases v
  case enumv cs2 m =>
    simp only [wtB, Bool.and_eq_true, decide_eq_true_eq] at h
    obtain ⟨heq, hm⟩ := h
    subst heq
    exact ⟨m, rfl, hm⟩
  all_goals simp only [wtB, Bool.false_eq_true] at h

theorem wtB_dataclassT (env : Env) (nm : String) (v : Val)
    (h : wtB env (.dataclassT nm) v = true) :
    ∃ fields fs, v = .inst nm fields ∧ lookupEnv env nm = some fs ∧
      wtFields env fs fields = true := by
  cases v
  case inst nm2 fields =>
    simp only [wtB, Bool.and_eq_true, decide_eq_true_eq] at h
    obtain ⟨heq, h2⟩ := h
    cases hl : lookupEnv env nm with
    | none => rw [hl] at h2; exact Bool.noConfusion h2
    | some fs => rw [hl] at h2; exact ⟨fields, fs, by rw [heq], rfl, h2⟩
  all_goals simp only [wtB, Bool.false_eq_true] at h

theorem wtB_clist (env : Env) (et : Ty) (v : Val)
    (h : wtB env (.clist et) v = true) :
    ∃ l, v = .list l ∧ wtList env et l = true := by
  cases v
  case list l =>
    simp only [wtB] at h
    exact ⟨l, rfl, h⟩
  all_goals simp only [wtB, Bool.false_eq_true] at h

theorem wtB_ctuple (env : Env) (et : Ty) (v : Val)
    (h : wtB env (.ctuple et) v = true) :
    ∃ l, v = .tuple l ∧ wtList env et l = true := by
  cases v
  case tuple l =>
    simp only [wtB] at h
    exact ⟨l, rfl, h⟩
  all_goals simp only [wtB, Bool.false_eq_true] at h

theorem wtB_cset (env : Env) (et : Ty) (v : Val)
    (h : wtB env (.cset et) v = true) :
    ∃ l, v = .set l ∧ wtList env et l = true := by
  cases v
  case set l =>
    simp only [wtB] at h
    exact ⟨l, rfl, h⟩
  all_goals simp only [wtB, Bool.false_eq_true] at h

theorem wtB_cfset (env : Env) (et : Ty) (v : Val)
    (h : wtB env (.cfset et) v = true) :
    ∃ l, v = .fset l ∧ wtList env et l = true := by
  cases v
  case fset l =>
    simp only [wtB] at h
    exact ⟨l, rfl, h⟩
  all_goals simp only [wtB, Bool.false_eq_true] at h

theorem wtB_cdict (env : Env) (kt vt : Ty) (v : Val)
    (h : wtB env (.cdict kt vt) v = true) :
    ∃ entries, v = .dict entries ∧ wtEntries env kt vt entries = true := by
  cases v
  case dict entries =>
    simp only [wtB] at h
    exact ⟨entries, rfl, h⟩
  all_goals simp only [wtB, Bool.false_eq_true] at h

theorem wtB_union2 (env : Env) (t1 t2 : Ty) (v : Val)
    (h : wtB env (.union [t1, t2]) v = true) :
    isNoneTy t2 = true ∧ (isNoneVal v = true ∨ wtB env t1 v = true) := by
  rw [wtB.eq_def] at h
  simp only [Bool.and_eq_true, Bool.or_eq_true] at h
  exact h

theorem classOK_cons (fn : String) (ft : Ty) (rest : Fields)
    (h : classOK ((fn, ft) :: rest) = true) :
    fieldOK ft = true ∧ classOK rest = true ∧ ∀ p ∈ rest, p.1 ≠ fn := by
  unfold classOK at h ⊢
  simp only [List.all_cons, List.map_cons, Bool.and_eq_true] at h
  obtain ⟨⟨h1, h2⟩, h3⟩ := h
  obtain ⟨h4, h5⟩ := nodupNames_cons fn (rest.map Prod.fst) h3
  refine ⟨h1, ?_, ?_⟩
  · simp only [Bool.and_eq_true]
    exact ⟨h2, h5⟩
  · intro p hp
    exact h4 p.1 (List.mem_map_of_mem Prod.fst hp)

/-- Encode/decode round trip for well-typed values over a well-formed
environment, by strong induction on the size of the value: scalars through
their codecs, containers elementwise, instances fieldwise (with the first
matching entry of the encoded mapping being the field's own, thanks to the
duplicate-free declared names). -/
theorem roundtrip_core (env : Env) (henv : envOK env = true) :
    ∀ n : Nat,
    (∀ t v, sizeOf v ≤ n → scalarOK t = true → wtB env t v = true →
      ∃ w, encodeValue v = .ok w ∧ decodeScalarD env t w = .ok v ∧
        isNoneVal w = isNoneVal v) ∧
    (∀ t v, sizeOf v ≤ n → containerOK t = true → wtB env t v = true →
      ∃ w, encodeValue v = .ok w ∧ decodeContainerD env t w = .ok v ∧
        isNoneVal w = isNoneVal v) ∧
    (∀ t v, sizeOf v ≤ n → fieldOK t = true → wtB env t v = true →
      ∃ w, encodeValue v = .ok w ∧ decodeFieldD env t w = .ok v) ∧
    (∀ et, scalarOK et = true → ∀ l, sizeOf l ≤ n → wtList env et l = true →
      ∃ ws, encodeList l = .ok ws ∧ decodeElems env et ws = .ok l) ∧
    (∀ kt vt, scalarOK kt = true → scalarOK vt = true →
      ∀ entries, sizeOf entries ≤ n → wtEntries env kt vt entries = true →
      ∃ es, encodeEntries entries = .ok es ∧
        decodeDictPairs env kt vt es = .ok entries) ∧
    (∀ fs, classOK fs = true → ∀ fields, sizeOf fields ≤ n →
      wtFields env fs fields = true →
      ∃ es, encodeFields fields = .ok es ∧
        decodeClassFields env fs (.dict es) = .ok fields) := by
  intro n
  induction n using Nat.strong_induction_on with
  | _ n IH =>
    have SA : ∀ t v, sizeOf v ≤ n → scalarOK t = true → wtB env t v = true →
        ∃ w, encodeValue v = .ok w ∧ decodeScalarD env t w = .ok v ∧
          isNoneVal w = isNoneVal v := by
      intro t v hsz ht hwt
      cases t
      case intT =>
        obtain ⟨m, rfl⟩ := wtB_intT env v hwt
        exact ⟨.int m, by simp [encodeValue], by simp [decodeScalarD], rfl⟩
      case strT =>
        obtain ⟨s, rfl⟩ := wtB_strT env v hwt
        exact ⟨.str s, by simp [encodeValue], by simp [decodeScalarD], rfl⟩
      case boolT =>
        obtain ⟨b, rfl⟩ := wtB_boolT env v hwt
        exact ⟨.bool b, by simp [encodeValue], by simp [decodeScalarD], rfl⟩
      case noneT =>
        obtain rfl := wtB_noneT env v hwt
        exact ⟨.none, by simp [encodeValue], by simp [decodeScalarD], rfl⟩
      case uuidT =>
        obtain ⟨s, rfl⟩ := wtB_uuidT env v hwt
        exact ⟨.str s, by simp [encodeValue], by simp [decodeScalarD], rfl⟩
      case decimalT =>
        obtain ⟨s, rfl⟩ := wtB_decimalT env v hwt
        exact ⟨.str s, by simp [encodeValue], by simp [decodeScalarD], rfl⟩
      case datetimeT =>
        obtain ⟨d, rfl, hv, hms⟩ := wtB_datetimeT env v hwt
        have hdt := json_to_datetime_datetime_to_json d
          (datetime_valid_of_validB d hv) hms
        exact ⟨.str (datetime_to_json d), by simp [encodeValue],
          by simp [decodeScalarD, hdt], rfl⟩
      case timeT =>
        obtain ⟨tv, rfl, hv, htz, hms⟩ := wtB_timeT env v hwt
        obtain ⟨s, hs1, hs2⟩ :=
          json_to_time_time_to_json tv (time_valid_of_validB tv hv) htz hms
        exact ⟨.str s, by simp [encodeValue, hs1],
          by simp [decodeScalarD, hs2], rfl⟩
      case dateT =>
        obtain ⟨d, rfl, hv⟩ := wtB_dateT env v hwt
        have hd := json_to_date_date_to_json d (date_valid_of_validB d hv)
        exact ⟨.str (date_to_json d), by simp [encodeValue],
          by simp [decodeScalarD, hd], rfl⟩
      case enumT cs =>
        obtain ⟨m, rfl, hm⟩ := wtB_enumT env cs v hwt
        exact ⟨.int m, by simp [encodeValue], by simp [decodeScalarD, hm], rfl⟩
      case dataclassT nm =>
        obtain ⟨fields, fs, rfl, hlook, hwtf⟩ := wtB_dataclassT env nm v hwt
        have hcls : classOK fs = true := classOK_of_envOK env nm fs henv hlook
        have hszf : sizeOf fields < n := by
          simp only [Val.inst.sizeOf_spec] at hsz
          have hpos : 0 < sizeOf nm := by
            cases nm; simp only [String.mk.sizeOf_spec]; omega
          omega
        obtain ⟨es, henc, hdec⟩ :=
          (IH (sizeOf fields) hszf).2.2.2.2.2 fs hcls fields (le_refl _) hwtf
        exact ⟨.dict es, by simp [encodeValue, henc],
          by simp [decodeScalarD, hlook, hdec], rfl⟩
      all_goals simp only [scalarOK, Bool.false_eq_true] at ht
    have SD : ∀ et, scalarOK et = true → ∀ l, sizeOf l ≤ n →
        wtList env et l = true →
        ∃ ws, encodeList l = .ok ws ∧ decodeElems env et ws = .ok l := by
      intro et het l
      induction l with
      | nil =>
        intro _ _
        exact ⟨[], by simp [encodeList], by simp [decodeElems]⟩
      | cons x rest ihl =>
        intro hsz hl
        have hx : wtB env et x = true ∧ wtList env et rest = true := by
          have h := hl
          rw [wtList] at h
          simp only [Bool.and_eq_true] at h
          exact h
        have hsx : sizeOf x ≤ n := by
          simp only [List.cons.sizeOf_spec] at hsz; omega
        have hsr : sizeOf rest ≤ n := by
          simp only [List.cons.sizeOf_spec] at hsz; omega
        obtain ⟨w, henc, hdec, _⟩ := SA et x hsx het hx.1
        obtain ⟨ws, hencs, hdecs⟩ := ihl hsr hx.2
        exact ⟨w :: ws, by simp [encodeList, henc, hencs],
          by simp [decodeElems, hdec, hdecs]⟩
    have SE : ∀ kt vt, scalarOK kt = true → scalarOK vt = true →
        ∀ entries, sizeOf entries ≤ n → wtEntries env kt vt entries = true →
        ∃ es, encodeEntries entries = .ok es ∧
          decodeDictPairs env kt vt es = .ok entries := by
      intro kt vt hkt hvt entries
      induction entries with
      | nil =>
        intro _ _
        exact ⟨[], by simp [encodeEntries], by simp [decodeDictPairs]⟩
      | cons e rest ihe =>
        intro hsz hl
        obtain ⟨k, w0⟩ := e
        have h3 : wtB env kt k = true ∧ wtB env vt w0 = true ∧
            wtEntries env kt vt rest = true := by
          have h := hl
          rw [wtEntries] at h
          simp only [Bool.and_eq_true] at h
          exact ⟨h.1.1, h.1.2, h.2⟩
        have hsk : sizeOf k ≤ n := by
          simp only [List.cons.sizeOf_spec, Prod.mk.sizeOf_spec] at hsz; omega
        have hsw : sizeOf w0 ≤ n := by
          simp only [List.cons.sizeOf_spec, Prod.mk.sizeOf_spec] at hsz; omega
        have hsr : sizeOf rest ≤ n := by
          simp only [List.cons.sizeOf_spec] at hsz; omega
        obtain ⟨wk, henck, hdeck, _⟩ := SA kt k hsk hkt h3.1
        obtain ⟨wv, hencv, hdecv, _⟩ := SA vt w0 hsw hvt h3.2.1
        obtain ⟨es, hencs, hdecs⟩ := ihe hsr h3.2.2
        exact ⟨(wk, wv) :: es, by simp [encodeEntries, henck, hencv, hencs],
          by simp [decodeDictPairs, hdeck, hdecv, hdecs]⟩
    have SB : ∀ t v, sizeOf v ≤ n → containerOK t = true → wtB env t v = true →
        ∃ w, encodeValue v = .ok w ∧ decodeContainerD env t w = .ok v ∧
          isNoneVal w = isNoneVal v := by
      intro t v hsz ht hwt
      cases t
      case clist et =>
        obtain ⟨l, rfl, hl⟩ := wtB_clist env et v hwt
        have het : scalarOK et = true := by simpa [containerOK] using ht
        have hls : sizeOf l ≤ n := by
          simp only [Val.list.sizeOf_spec] at hsz; omega
        obtain ⟨ws, henc, hdec⟩ := SD et het l hls hl
        exact ⟨.list ws, by simp [encodeValue, henc],
          by simp [decodeContainerD, decodeIterable, hdec], rfl⟩
      case ctuple et =>
        obtain ⟨l, rfl, hl⟩ := wtB_ctuple env et v hwt
        have het : scalarOK et = true := by simpa [containerOK] using ht
        have hls : sizeOf l ≤ n := by
          simp only [Val.tuple.sizeOf_spec] at hsz; omega
        obtain ⟨ws, henc, hdec⟩ := SD et het l hls hl
        exact ⟨.list ws, by simp [encodeValue, henc],
          by simp [decodeContainerD, decodeIterable, hdec], rfl⟩
      case cset et =>
        obtain ⟨l, rfl, hl⟩ := wtB_cset env et v hwt
        have het : scalarOK et = true := by simpa [containerOK] using ht
        have hls : sizeOf l ≤ n := by
          simp only [Val.set.sizeOf_spec] at hsz; omega
        obtain ⟨ws, henc, hdec⟩ := SD et het l hls hl
        exact ⟨.list ws, by simp [encodeValue, henc],
          by simp [decodeContainerD, decodeIterable, hdec], rfl⟩
      case cfset et =>
        obtain ⟨l, rfl, hl⟩ := wtB_cfset env et v hwt
        have het : scalarOK et = true := by simpa [containerOK] using ht
        have hls : sizeOf l ≤ n := by
          simp only [Val.fset.sizeOf_spec] at hsz; omega
        obtain ⟨ws, henc, hdec⟩ := SD et het l hls hl
        exact ⟨.list ws, by simp [encodeValue, henc],
          by simp [decodeContainerD, decodeIterable, hdec], rfl⟩
      case cdict kt vt =>
        obtain ⟨entries, rfl, hl⟩ := wtB_cdict env kt vt v hwt
        have hks : scalarOK kt = true ∧ scalarOK vt = true := by
          simpa [containerOK, Bool.and_eq_true] using ht
        have hls : sizeOf entries ≤ n := by
          simp only [Val.dict.sizeOf_spec] at hsz; omega
        obtain ⟨es, henc, hdec⟩ := SE kt vt hks.1 hks.2 entries hls hl
        exact ⟨.dict es, by simp [encodeValue, henc],
          by simp [decodeContainerD, hdec], rfl⟩
      all_goals simp only [containerOK, Bool.false_eq_true] at ht
    have SF : ∀ t v, sizeOf v ≤ n → fieldOK t = true → wtB env t v = true →
        ∃ w, encodeValue v = .ok w ∧ decodeFieldD env t w = .ok v := by
      intro t v hsz ht hwt
      cases t
      case union ts =>
        cases ts with
        | nil => simp [fieldOK] at ht
        | cons t1 ts2 =>
          cases ts2 with
          | nil => simp [fieldOK] at ht
          | cons t2 ts3 =>
            cases ts3 with
            | cons t3 ts4 => simp [fieldOK] at ht
            | nil =>
              have ht2 : isNoneTy t2 = true ∧
                  (scalarOK t1 || containerOK t1) = true := by
                simpa [fieldOK, Bool.and_eq_true] using ht
              have hwt2 := wtB_union2 env t1 t2 v hwt
              by_cases hnv : isNoneVal v = true
              · obtain rfl := isNoneVal_eq v hnv
                refine ⟨.none, by simp [encodeValue], ?_⟩
                simp [decodeFieldD, ht2.1, isNoneVal]
                simp [getOrigin]
              · have hwt1 : wtB env t1 v = true := by
                  rcases hwt2.2 with h | h
                  · exact absurd h hnv
                  · exact h
                have hnvf : isNoneVal v = false := by
                  cases hx : isNoneVal v
                  · rfl
                  · exact absurd hx hnv
                have hor : scalarOK t1 = true ∨ containerOK t1 = true := by
                  have h := ht2.2
                  simp only [Bool.or_eq_true] at h
                  exact h
                rcases hor with hsc1 | hco1
                · obtain ⟨w, henc, hdec, hnw⟩ := SA t1 v hsz hsc1 hwt1
                  have horig1 : getOrigin t1 = Option.none :=
                    (scalarOK_facts t1 hsc1).1
                  refine ⟨w, henc, ?_⟩
                  simp [decodeFieldD, ht2.1, hnw, hnvf, horig1, hdec]
                  simp [getOrigin]
                · obtain ⟨w, henc, hdec, hnw⟩ := SB t1 v hsz hco1 hwt1
                  obtain ⟨o1, horig1, _⟩ := containerOK_origin t1 hco1
                  refine ⟨w, henc, ?_⟩
                  simp [decodeFieldD, ht2.1, hnw, hnvf, horig1, hdec]
                  simp [getOrigin]
      case clist et =>
        obtain ⟨w, henc, hdec, _⟩ := SB (.clist et) v hsz
          (by simpa [fieldOK, scalarOK, containerOK] using ht) hwt
        exact ⟨w, henc, by simp [decodeFieldD, hdec]; simp [getOrigin]⟩
      case ctuple et =>
        obtain ⟨w, henc, hdec, _⟩ := SB (.ctuple et) v hsz
          (by simpa [fieldOK, scalarOK, containerOK] using ht) hwt
        exact ⟨w, henc, by simp [decodeFieldD, hdec]; simp [getOrigin]⟩
      case cset et =>
        obtain ⟨w, henc, hdec, _⟩ := SB (.cset et) v hsz
          (by simpa [fieldOK, scalarOK, containerOK] using ht) hwt
        exact ⟨w, henc, by simp [decodeFieldD, hdec]; simp [getOrigin]⟩
      case cfset et =>
        obtain ⟨w, henc, hdec, _⟩ := SB (.cfset et) v hsz
          (by simpa [fieldOK, scalarOK, containerOK] using ht) hwt
        exact ⟨w, henc, by simp [decodeFieldD, hdec]; simp [getOrigin]⟩
      case cdict kt vt =>
        obtain ⟨w, henc, hdec, _⟩ := SB (.cdict kt vt) v hsz
          (by simpa [fieldOK, scalarOK, containerOK] using ht) hwt
        exact ⟨w, henc, by simp [decodeFieldD, hdec]; simp [getOrigin]⟩
      case intT =>
        obtain ⟨w, henc, hdec, _⟩ := SA .intT v hsz rfl hwt
        exact ⟨w, henc, by simp [decodeFieldD, isBareContainer, hdec]; simp [getOrigin]⟩
      case strT =>
        obtain ⟨w, henc, hdec, _⟩ := SA .strT v hsz rfl hwt
        exact ⟨w, henc, by simp [decodeFieldD, isBareContainer, hdec]; simp [getOrigin]⟩
      case boolT =>
        obtain ⟨w, henc, hdec, _⟩ := SA .boolT v hsz rfl hwt
        exact ⟨w, henc, by simp [decodeFieldD, isBareContainer, hdec]; simp [getOrigin]⟩
      case noneT =>
        obtain ⟨w, henc, hdec, _⟩ := SA .noneT v hsz rfl hwt
        exact ⟨w, henc, by simp [decodeFieldD, isBareContainer, hdec]; simp [getOrigin]⟩
      case uuidT =>
        obtain ⟨w, henc, hdec, _⟩ := SA .uuidT v hsz rfl hwt
        exact ⟨w, henc, by simp [decodeFieldD, isBareContainer, hdec]; simp [getOrigin]⟩
      case decimalT =>
        obtain ⟨w, henc, hdec, _⟩ := SA .decimalT v hsz rfl hwt
        exact ⟨w, henc, by simp [decodeFieldD, isBareContainer, hdec]; simp [getOrigin]⟩
      case datetimeT =>
        obtain ⟨w, henc, hdec, _⟩ := SA .datetimeT v hsz rfl hwt
        exact ⟨w, henc, by simp [decodeFieldD, isBareContainer, hdec]; simp [getOrigin]⟩
      case timeT =>
        obtain ⟨w, henc, hdec, _⟩ := SA .timeT v hsz rfl hwt
        exact ⟨w, henc, by simp [decodeFieldD, isBareContainer, hdec]; simp [getOrigin]⟩
      case dateT =>
        obtain ⟨w, henc, hdec, _⟩ := SA .dateT v hsz rfl hwt
        exact ⟨w, henc, by simp [decodeFieldD, isBareContainer, hdec]; simp [getOrigin]⟩
      case enumT cs =>
        obtain ⟨w, henc, hdec, _⟩ := SA (.enumT cs) v hsz rfl hwt
        exact ⟨w, henc, by simp [decodeFieldD, isBareContainer, hdec]; simp [getOrigin]⟩
      case dataclassT nm =>
        obtain ⟨w, henc, hdec, _⟩ := SA (.dataclassT nm) v hsz rfl hwt
        exact ⟨w, henc, by simp [decodeFieldD, isBareContainer, hdec]; simp [getOrigin]⟩
      all_goals simp only [fieldOK, scalarOK, containerOK, Bool.or_self,
        Bool.false_eq_true] at ht
    have SFl : ∀ fs, classOK fs = true → ∀ fields, sizeOf fields ≤ n →
        wtFields env fs fields = true →
        ∃ es, encodeFields fields = .ok es ∧
          decodeClassFields env fs (.dict es) = .ok fields := by
      intro fs
      induction fs with
      | nil =>
        intro _ fields hsz hwtf
        cases fields with
        | nil => exact ⟨[], by simp [encodeFields], by simp [decodeClassFields]⟩
        | cons g fr =>
          simp only [wtFields, Bool.false_eq_true] at hwtf
      | cons fhd fsRest ihfs =>
        intro hcls fields hsz hwtf
        obtain ⟨fn, ft⟩ := fhd
        cases fields with
        | nil =>
          simp only [wtFields, Bool.false_eq_true] at hwtf
        | cons g fr =>
          obtain ⟨gn, gv⟩ := g
          have h3 : gn = fn ∧ wtB env ft gv = true ∧
              wtFields env fsRest fr = true := by
            have h := hwtf
            rw [wtFields] at h
            simp only [Bool.and_eq_true, decide_eq_true_eq] at h
            exact ⟨h.1.1, h.1.2, h.2⟩
          obtain ⟨hft, hclsR, hne⟩ := classOK_cons fn ft fsRest hcls
          obtain rfl := h3.1
          have hsg : sizeOf gv ≤ n := by
            simp only [List.cons.sizeOf_spec, Prod.mk.sizeOf_spec] at hsz; omega
          have hsr : sizeOf fr ≤ n := by
            simp only [List.cons.sizeOf_spec] at hsz; omega
          obtain ⟨w, henc1, hdec1⟩ := SF ft gv hsg hft h3.2.1
          obtain ⟨es, henc2, hdec2⟩ := ihfs hclsR fr hsr h3.2.2
          have hskip := decodeClassFields_skip env (.str gn) w es fsRest
            (fun p hp => by
              simp only [isStrKey, decide_eq_false_iff_not]
              exact fun hh => (hne p hp) hh.symm)
          refine ⟨(.str gn, w) :: es, ?_, ?_⟩
          · simp [encodeFields, henc1, henc2]
          · rw [decodeClassFields_cons]
            simp [getItem, lookupField, isStrKey, hdec1, hskip, hdec2]
    exact ⟨SA, SB, SF, SD, SE, SFl⟩

/-- C1 counterexample: a validly-constructed instance of a registered record
type whose datetime field carries 157178 microseconds encodes successfully but
decodes to a DIFFERENT instance — the codec truncates fractional seconds to
milliseconds — so decode∘encode is not the identity on valid instances. -/
theorem claim_C1_counterexample :
    envOK [("E", [("d", .datetimeT)])] = true ∧
    Datetime.Valid ⟨2021, 4, 23, 9, 5, 16, 157178, some 0⟩ ∧
    serialize_to_dict
        (.inst "E" [("d", .datetime ⟨2021, 4, 23, 9, 5, 16, 157178, some 0⟩)]) =
      .ok (.dict [(.str "d", .str "2021-04-23T09:05:16.157Z")]) ∧
    load_dict [("E", [("d", .datetimeT)])] "E"
        (.dict [(.str "d", .str "2021-04-23T09:05:16.157Z")]) =
      .ok (.inst "E" [("d", .datetime ⟨2021, 4, 23, 9, 5, 16, 157000, some 0⟩)]) ∧
    (Val.inst "E" [("d", .datetime ⟨2021, 4, 23, 9, 5, 16, 157000, some 0⟩)] ≠
      Val.inst "E" [("d", .datetime ⟨2021, 4, 23, 9, 5, 16, 157178, some 0⟩)]) := by
  refine ⟨by decide, datetime_valid_of_validB _ (by decide), ?_, ?_, by simp⟩
  · have h1 : datetime_to_json ⟨2021, 4, 23, 9, 5, 16, 157178, some 0⟩ =
        "2021-04-23T09:05:16.157Z" := by decide
    simp [serialize_to_dict, encodeFields, encodeValue, h1]
  · have h2 : json_to_datetime "2021-04-23T09:05:16.157Z" =
        .ok ⟨2021, 4, 23, 9, 5, 16, 157000, some 0⟩ := by rfl
    simp [load_dict, lookupEnv, registerDataclass, extractEntry, deriveClass,
      deriveField, deriveScalar, getOrigin, isBareContainer, decodeClassFields,
      getItem, lookupField, isStrKey, decodeFieldD, decodeScalarD, h2]

/-- C1 amended: over a well-formed environment — every registered record
type's field types covered by the codecs and its field names distinct — a
validly-constructed well-typed instance serializes successfully, and decoding
the result recovers the instance field-for-field, provided its datetime
values are millisecond-aligned and its time values naive and
millisecond-aligned (the codecs truncate fractional seconds to milliseconds
and reject timezone-aware times, so the unrestricted round trip fails). -/
theorem claim_C1_roundtrip_amended (env : Env) (name : String) (x : Val)
    (henv : envOK env = true)
    (hwt : wtB env (.dataclassT name) x = true) :
    ∃ doc, serialize_to_dict x = .ok doc ∧ load_dict env name doc = .ok x := by
  obtain ⟨fields, fs, rfl, hlook, hwtf⟩ := wtB_dataclassT env name x hwt
  have hcls : classOK fs = true := classOK_of_envOK env name fs henv hlook
  obtain ⟨es, henc, hdec⟩ :=
    (roundtrip_core env henv (sizeOf fields)).2.2.2.2.2 fs hcls fields
      (le_refl _) hwtf
  have hreg := registerDataclass_ok_of_envOK env name fs henv hlook
  refine ⟨.dict es, ?_, ?_⟩
  · simp [serialize_to_dict, henc]
  · simp [load_dict, hlook, hreg, hdec]

/-- A run of the C1 amended theorem: an instance with a text field and a list
of integers field encodes and decodes back to itself. -/
theorem claim_C1_roundtrip_amended_witness :
    ∃ doc, serialize_to_dict
        (.inst "P" [("name", .str "ada"), ("xs", .list [.int 1, .int 2])]) =
          .ok doc ∧
      load_dict [("P", [("name", .strT), ("xs", .clist .intT)])] "P" doc =
        .ok (.inst "P" [("name", .str "ada"), ("xs", .list [.int 1, .int 2])]) :=
  claim_C1_roundtrip_amended [("P", [("name", .strT), ("xs", .clist .intT)])] "P"
    (.inst "P" [("name", .str "ada"), ("xs", .list [.int 1, .int 2])])
    (by decide)
    (by simp [wtB, wtFields, wtList, lookupEnv])

end Dataload
